import Mathlib

/-!
# Verification of the c-utf8-valid UTF-8 validator

Shallow embedding of `src/utf8_valid.h` (shift-based DFA for UTF-8
validation) and proofs of the specified properties.

Bytes are modelled as `Fin 256` (C `unsigned char`), the running DFA
state as `Nat` (C `uint32_t`; every value that actually arises fits in
32 bits, and all arithmetic below is shift/mask arithmetic that cannot
overflow 32 bits).
-/

set_option maxHeartbeats 1000000
set_option maxRecDepth 10000

abbrev Byte := Fin 256

/-! ## State offsets (bit positions within each packed row) -/

def S_ERROR : Nat := 0
def S_ACCEPT : Nat := 6
def S_TAIL1 : Nat := 16
def S_TAIL2 : Nat := 1
def S_E0 : Nat := 19
def S_ED : Nat := 25
def S_F0 : Nat := 11
def S_F1_F3 : Nat := 18
def S_F4 : Nat := 24

/-! ## Packed transition rows (the `DFA_ROW` macro) -/

def DFA_ROW (accept error tail1 tail2 e0 ed f0 f1_f3 f4 : Nat) : Nat :=
  (accept <<< S_ACCEPT) ||| (error <<< S_ERROR) ||| (tail1 <<< S_TAIL1) |||
  (tail2 <<< S_TAIL2) ||| (e0 <<< S_E0) ||| (ed <<< S_ED) |||
  (f0 <<< S_F0) ||| (f1_f3 <<< S_F1_F3) ||| (f4 <<< S_F4)

def ASCII_ROW : Nat :=
  DFA_ROW S_ACCEPT S_ERROR S_ERROR S_ERROR S_ERROR S_ERROR S_ERROR S_ERROR S_ERROR

def LEAD2_ROW : Nat :=
  DFA_ROW S_TAIL1 S_ERROR S_ERROR S_ERROR S_ERROR S_ERROR S_ERROR S_ERROR S_ERROR

def LEAD3_ROW : Nat :=
  DFA_ROW S_TAIL2 S_ERROR S_ERROR S_ERROR S_ERROR S_ERROR S_ERROR S_ERROR S_ERROR

def LEAD4_ROW : Nat :=
  DFA_ROW S_F1_F3 S_ERROR S_ERROR S_ERROR S_ERROR S_ERROR S_ERROR S_ERROR S_ERROR

def ERROR_ROW : Nat :=
  DFA_ROW S_ERROR S_ERROR S_ERROR S_ERROR S_ERROR S_ERROR S_ERROR S_ERROR S_ERROR

def CONT_80_8F : Nat :=
  DFA_ROW S_ERROR S_ERROR S_ACCEPT S_TAIL1 S_ERROR S_TAIL1 S_ERROR S_TAIL2 S_TAIL2

def CONT_90_9F : Nat :=
  DFA_ROW S_ERROR S_ERROR S_ACCEPT S_TAIL1 S_ERROR S_TAIL1 S_TAIL2 S_TAIL2 S_ERROR

def CONT_A0_BF : Nat :=
  DFA_ROW S_ERROR S_ERROR S_ACCEPT S_TAIL1 S_TAIL1 S_ERROR S_TAIL2 S_TAIL2 S_ERROR

def E0_ROW : Nat :=
  DFA_ROW S_E0 S_ERROR S_ERROR S_ERROR S_ERROR S_ERROR S_ERROR S_ERROR S_ERROR

def ED_ROW : Nat :=
  DFA_ROW S_ED S_ERROR S_ERROR S_ERROR S_ERROR S_ERROR S_ERROR S_ERROR S_ERROR

def F0_ROW : Nat :=
  DFA_ROW S_F0 S_ERROR S_ERROR S_ERROR S_ERROR S_ERROR S_ERROR S_ERROR S_ERROR

def F4_ROW : Nat :=
  DFA_ROW S_F4 S_ERROR S_ERROR S_ERROR S_ERROR S_ERROR S_ERROR S_ERROR S_ERROR

/-- The 256-entry transition table `utf8_dfa`.  The C source lists all 256
entries one by one; entries with equal rows are grouped into the ranges
shown in the source's own comments (00-7F ASCII, 80-8F / 90-9F / A0-BF
continuations, C0-C1 invalid, C2-DF two-byte leads, E0, E1-EC three-byte
leads, ED, EE-EF three-byte leads, F0, F1-F3 four-byte leads, F4, F5-FF
invalid). -/
def utf8_dfa (c : Byte) : Nat :=
  if c.val ≤ 0x7F then ASCII_ROW
  else if c.val ≤ 0x8F then CONT_80_8F
  else if c.val ≤ 0x9F then CONT_90_9F
  else if c.val ≤ 0xBF then CONT_A0_BF
  else if c.val ≤ 0xC1 then ERROR_ROW
  else if c.val ≤ 0xDF then LEAD2_ROW
  else if c.val = 0xE0 then E0_ROW
  else if c.val ≤ 0xEC then LEAD3_ROW
  else if c.val = 0xED then ED_ROW
  else if c.val ≤ 0xEF then LEAD3_ROW
  else if c.val = 0xF0 then F0_ROW
  else if c.val ≤ 0xF3 then LEAD4_ROW
  else if c.val = 0xF4 then F4_ROW
  else ERROR_ROW

/-- `utf8_dfa_step`: `(utf8_dfa[c] >> state) & 31`. -/
def utf8_dfa_step (state : Nat) (c : Byte) : Nat :=
  (utf8_dfa c >>> state) &&& 31

/-- `utf8_dfa_run`: fold `utf8_dfa_step` over the buffer in order. -/
def utf8_dfa_run (state : Nat) (src : List Byte) : Nat :=
  src.foldl utf8_dfa_step state

example : utf8_dfa_step S_ACCEPT 0x41 = S_ACCEPT := by decide
example : utf8_dfa_step S_ACCEPT 0xC3 = S_TAIL1 := by decide
example : utf8_dfa_step S_TAIL1 0xA9 = S_ACCEPT := by decide
example : utf8_dfa_step S_ACCEPT 0x80 = S_ERROR := by decide
example : ∀ c : Byte, utf8_dfa_step S_ERROR c = S_ERROR := by decide

/-! ## Reference grammar step (spec §4.1, stated per byte ranges) -/

/-- The nine symbolic states, identified by their bit offsets. -/
def utf8_states : List Nat :=
  [S_ERROR, S_TAIL2, S_ACCEPT, S_F0, S_TAIL1, S_F1_F3, S_E0, S_F4, S_ED]

/-- Next state prescribed by the UTF-8 grammar for (state, byte), written
directly from the spec's description of the 256 table rows (§4.1):
ASCII only from ACCEPT; the three continuation ranges with their
restricted-lead sub-ranges; leads only from ACCEPT. -/
def utf8_grammar_step (s : Nat) (c : Byte) : Nat :=
  if s = S_ACCEPT then
    if c.val ≤ 0x7F then S_ACCEPT
    else if c.val ≤ 0xC1 then S_ERROR
    else if c.val ≤ 0xDF then S_TAIL1
    else if c.val = 0xE0 then S_E0
    else if c.val ≤ 0xEC then S_TAIL2
    else if c.val = 0xED then S_ED
    else if c.val ≤ 0xEF then S_TAIL2
    else if c.val = 0xF0 then S_F0
    else if c.val ≤ 0xF3 then S_F1_F3
    else if c.val = 0xF4 then S_F4
    else S_ERROR
  else if s = S_TAIL1 then
    if 0x80 ≤ c.val ∧ c.val ≤ 0xBF then S_ACCEPT else S_ERROR
  else if s = S_TAIL2 then
    if 0x80 ≤ c.val ∧ c.val ≤ 0xBF then S_TAIL1 else S_ERROR
  else if s = S_E0 then
    if 0xA0 ≤ c.val ∧ c.val ≤ 0xBF then S_TAIL1 else S_ERROR
  else if s = S_ED then
    if 0x80 ≤ c.val ∧ c.val ≤ 0x9F then S_TAIL1 else S_ERROR
  else if s = S_F0 then
    if 0x90 ≤ c.val ∧ c.val ≤ 0xBF then S_TAIL2 else S_ERROR
  else if s = S_F1_F3 then
    if 0x80 ≤ c.val ∧ c.val ≤ 0xBF then S_TAIL2 else S_ERROR
  else if s = S_F4 then
    if 0x80 ≤ c.val ∧ c.val ≤ 0x8F then S_TAIL2 else S_ERROR
  else S_ERROR

/-- The packed table agrees with the grammar on all nine states. -/
theorem dfa_step_eq_grammar :
    ∀ c : Byte, ∀ s ∈ utf8_states, utf8_dfa_step s c = utf8_grammar_step s c := by
  decide

/-- The nine state fields are closed under stepping. -/
theorem dfa_step_mem_states :
    ∀ c : Byte, ∀ s ∈ utf8_states, utf8_dfa_step s c ∈ utf8_states := by
  decide

/-! ## Pointwise step classification lemmas -/

theorem step_error_absorb (c : Byte) : utf8_dfa_step 0 c = 0 := by
  revert c; decide

theorem step6_ascii (c : Byte) (h : c.val ≤ 0x7F) : utf8_dfa_step 6 c = 6 := by
  revert c; decide

theorem step6_bad (c : Byte)
    (h : (0x80 ≤ c.val ∧ c.val ≤ 0xC1) ∨ 0xF5 ≤ c.val) : utf8_dfa_step 6 c = 0 := by
  revert c; decide

theorem step6_lead2 (c : Byte) (h : 0xC2 ≤ c.val ∧ c.val ≤ 0xDF) :
    utf8_dfa_step 6 c = 16 := by
  revert c; decide

theorem step6_lead3 (c : Byte) (h : 0xE0 ≤ c.val ∧ c.val ≤ 0xEF) :
    utf8_dfa_step 6 c = if c.val = 0xE0 then 19 else if c.val = 0xED then 25 else 1 := by
  revert c; decide

theorem step6_lead4 (c : Byte) (h : 0xF0 ≤ c.val ∧ c.val ≤ 0xF4) :
    utf8_dfa_step 6 c = if c.val = 0xF0 then 11 else if c.val = 0xF4 then 24 else 18 := by
  revert c; decide

theorem step16_iff (c : Byte) :
    utf8_dfa_step 16 c = if 0x80 ≤ c.val ∧ c.val ≤ 0xBF then 6 else 0 := by
  revert c; decide

theorem step1_iff (c : Byte) :
    utf8_dfa_step 1 c = if 0x80 ≤ c.val ∧ c.val ≤ 0xBF then 16 else 0 := by
  revert c; decide

theorem step19_iff (c : Byte) :
    utf8_dfa_step 19 c = if 0xA0 ≤ c.val ∧ c.val ≤ 0xBF then 16 else 0 := by
  revert c; decide

theorem step25_iff (c : Byte) :
    utf8_dfa_step 25 c = if 0x80 ≤ c.val ∧ c.val ≤ 0x9F then 16 else 0 := by
  revert c; decide

theorem step11_iff (c : Byte) :
    utf8_dfa_step 11 c = if 0x90 ≤ c.val ∧ c.val ≤ 0xBF then 1 else 0 := by
  revert c; decide

theorem step18_iff (c : Byte) :
    utf8_dfa_step 18 c = if 0x80 ≤ c.val ∧ c.val ≤ 0xBF then 1 else 0 := by
  revert c; decide

theorem step24_iff (c : Byte) :
    utf8_dfa_step 24 c = if 0x80 ≤ c.val ∧ c.val ≤ 0x8F then 1 else 0 := by
  revert c; decide

/-! ## Basic run lemmas -/

theorem run_nil (s : Nat) : utf8_dfa_run s [] = s := rfl

theorem run_cons (s : Nat) (c : Byte) (l : List Byte) :
    utf8_dfa_run s (c :: l) = utf8_dfa_run (utf8_dfa_step s c) l := rfl

theorem run_append (s : Nat) (a b : List Byte) :
    utf8_dfa_run s (a ++ b) = utf8_dfa_run (utf8_dfa_run s a) b := by
  simp [utf8_dfa_run, List.foldl_append]

theorem run_error_absorb (l : List Byte) : utf8_dfa_run 0 l = 0 := by
  induction l with
  | nil => rfl
  | cons c t ih => rw [run_cons, step_error_absorb]; exact ih

theorem run_ascii (l : List Byte) (h : ∀ c ∈ l, c.val ≤ 0x7F) :
    utf8_dfa_run 6 l = 6 := by
  induction l with
  | nil => rfl
  | cons c t ih =>
    rw [run_cons, step6_ascii c (h c (List.mem_cons_self c t))]
    exact ih fun x hx => h x (List.mem_cons_of_mem c hx)

/-! ## Spec-side well-formedness (the Unicode encoding table, spec §8 / §4.1) -/

/-- Lower bound of the legal first-continuation range for a 3/4-byte lead
(spec: E0 requires A0-BF, F0 requires 90-BF, all other leads 80-..). -/
def utf8_cont1_lo (c : Byte) : Nat :=
  if c.val = 0xE0 then 0xA0 else if c.val = 0xF0 then 0x90 else 0x80

/-- Upper bound of the legal first-continuation range for a 3/4-byte lead
(spec: ED requires 80-9F, F4 requires 80-8F, all other leads ..-BF). -/
def utf8_cont1_hi (c : Byte) : Nat :=
  if c.val = 0xED then 0x9F else if c.val = 0xF4 then 0x8F else 0xBF

/-- Modelled from the spec's words (§8, §4.1, glossary): a buffer is
well-formed UTF-8 iff it is a concatenation of 1-4-byte forms matching the
Unicode encoding table — ASCII `00-7F`; `C2-DF` plus one continuation
`80-BF`; `E0-EF` plus a restricted first continuation plus one
continuation; `F0-F4` plus a restricted first continuation plus two
continuations.  `C0-C1` and `F5-FF` never start a form (overlong 2-byte
forms / beyond U+10FFFF); the restricted first-continuation ranges
(`utf8_cont1_lo/hi`) exclude overlongs, surrogates and code points above
U+10FFFF.  The list patterns are split by available length so that each
truncated form is rejected. -/
def utf8_spec_wf : List Byte → Bool
  | [] => true
  | [c1] => decide (c1.val ≤ 0x7F)
  | [c1, c2] =>
      if c1.val ≤ 0x7F then utf8_spec_wf [c2]
      else if 0xC2 ≤ c1.val ∧ c1.val ≤ 0xDF then decide (0x80 ≤ c2.val ∧ c2.val ≤ 0xBF)
      else false
  | [c1, c2, c3] =>
      if c1.val ≤ 0x7F then utf8_spec_wf [c2, c3]
      else if 0xC2 ≤ c1.val ∧ c1.val ≤ 0xDF then
        decide (0x80 ≤ c2.val ∧ c2.val ≤ 0xBF) && utf8_spec_wf [c3]
      else if 0xE0 ≤ c1.val ∧ c1.val ≤ 0xEF then
        decide ((utf8_cont1_lo c1 ≤ c2.val ∧ c2.val ≤ utf8_cont1_hi c1) ∧
                (0x80 ≤ c3.val ∧ c3.val ≤ 0xBF))
      else false
  | c1 :: c2 :: c3 :: c4 :: rest =>
      if c1.val ≤ 0x7F then utf8_spec_wf (c2 :: c3 :: c4 :: rest)
      else if 0xC2 ≤ c1.val ∧ c1.val ≤ 0xDF then
        decide (0x80 ≤ c2.val ∧ c2.val ≤ 0xBF) && utf8_spec_wf (c3 :: c4 :: rest)
      else if 0xE0 ≤ c1.val ∧ c1.val ≤ 0xEF then
        decide ((utf8_cont1_lo c1 ≤ c2.val ∧ c2.val ≤ utf8_cont1_hi c1) ∧
                (0x80 ≤ c3.val ∧ c3.val ≤ 0xBF)) && utf8_spec_wf (c4 :: rest)
      else if 0xF0 ≤ c1.val ∧ c1.val ≤ 0xF4 then
        decide ((utf8_cont1_lo c1 ≤ c2.val ∧ c2.val ≤ utf8_cont1_hi c1) ∧
                (0x80 ≤ c3.val ∧ c3.val ≤ 0xBF) ∧
                (0x80 ≤ c4.val ∧ c4.val ≤ 0xBF)) && utf8_spec_wf rest
      else false

example : utf8_spec_wf [] = true := by decide
example : utf8_spec_wf [0x41] = true := by decide
example : utf8_spec_wf [0xC3, 0xA9] = true := by decide
example : utf8_spec_wf [0xC0, 0x80] = false := by decide
example : utf8_spec_wf [0xED, 0xA0, 0x80] = false := by decide
example : utf8_spec_wf [0xED, 0x9F, 0xBF] = true := by decide
example : utf8_spec_wf [0xF4, 0x90, 0x80, 0x80] = false := by decide
example : utf8_spec_wf [0xF4, 0x8F, 0xBF, 0xBF] = true := by decide
example : utf8_spec_wf [0xE2, 0x82, 0xAC] = true := by decide
example : utf8_spec_wf [0xF0, 0x9F, 0x98, 0x80, 0x41] = true := by decide

/-- Two table steps from ACCEPT through a 3-byte lead: the second byte is
screened against exactly the `utf8_cont1_lo/hi` range of the lead. -/
theorem step6_lead3_cont (c1 c2 : Byte) (h : 0xE0 ≤ c1.val ∧ c1.val ≤ 0xEF) :
    utf8_dfa_step (utf8_dfa_step 6 c1) c2 =
      if utf8_cont1_lo c1 ≤ c2.val ∧ c2.val ≤ utf8_cont1_hi c1 then 16 else 0 := by
  rw [step6_lead3 c1 h]
  by_cases hE0 : c1.val = 0xE0
  · rw [if_pos hE0, step19_iff]
    simp [utf8_cont1_lo, utf8_cont1_hi, hE0]
  · by_cases hED : c1.val = 0xED
    · rw [if_neg hE0, if_pos hED, step25_iff]
      simp [utf8_cont1_lo, utf8_cont1_hi, hED]
    · have hF0 : c1.val ≠ 0xF0 := by omega
      have hF4 : c1.val ≠ 0xF4 := by omega
      rw [if_neg hE0, if_neg hED, step1_iff]
      simp [utf8_cont1_lo, utf8_cont1_hi, hE0, hED, hF0, hF4]

/-- Two table steps from ACCEPT through a 4-byte lead: the second byte is
screened against exactly the `utf8_cont1_lo/hi` range of the lead. -/
theorem step6_lead4_cont (c1 c2 : Byte) (h : 0xF0 ≤ c1.val ∧ c1.val ≤ 0xF4) :
    utf8_dfa_step (utf8_dfa_step 6 c1) c2 =
      if utf8_cont1_lo c1 ≤ c2.val ∧ c2.val ≤ utf8_cont1_hi c1 then 1 else 0 := by
  rw [step6_lead4 c1 h]
  by_cases hF0 : c1.val = 0xF0
  · rw [if_pos hF0, step11_iff]
    simp [utf8_cont1_lo, utf8_cont1_hi, hF0]
  · by_cases hF4 : c1.val = 0xF4
    · rw [if_neg hF0, if_pos hF4, step24_iff]
      simp [utf8_cont1_lo, utf8_cont1_hi, hF4]
    · have hE0 : c1.val ≠ 0xE0 := by omega
      have hED : c1.val ≠ 0xED := by omega
      rw [if_neg hF0, if_neg hF4, step18_iff]
      simp [utf8_cont1_lo, utf8_cont1_hi, hE0, hED, hF0, hF4]

/-- A non-ASCII byte never takes ACCEPT back to ACCEPT in one step. -/
theorem step6_ne_six (c : Byte) (h : ¬ c.val ≤ 0x7F) : utf8_dfa_step 6 c ≠ 6 := by
  revert c; decide

/-! ## Unfolding lemmas for `utf8_spec_wf` -/

theorem wf_cons_ascii (c1 : Byte) (h : c1.val ≤ 0x7F) (rest : List Byte) :
    utf8_spec_wf (c1 :: rest) = utf8_spec_wf rest := by
  rcases rest with _ | ⟨c2, rest2⟩
  · simp [utf8_spec_wf, h]
  rcases rest2 with _ | ⟨c3, rest3⟩
  · simp [utf8_spec_wf, h]
  rcases rest3 with _ | ⟨c4, rest4⟩
  · simp [utf8_spec_wf, h]
  · simp [utf8_spec_wf, h]

theorem wf_single (c1 : Byte) (h1 : ¬ c1.val ≤ 0x7F) : utf8_spec_wf [c1] = false := by
  simp [utf8_spec_wf, h1]

theorem wf_two_false (c1 c2 : Byte) (h1 : ¬ c1.val ≤ 0x7F)
    (h2 : ¬(0xC2 ≤ c1.val ∧ c1.val ≤ 0xDF)) : utf8_spec_wf [c1, c2] = false := by
  simp [utf8_spec_wf, h1, h2]

theorem wf_lead2_cons (c1 c2 : Byte) (rest2 : List Byte) (h1 : ¬ c1.val ≤ 0x7F)
    (h2 : 0xC2 ≤ c1.val ∧ c1.val ≤ 0xDF) :
    utf8_spec_wf (c1 :: c2 :: rest2) =
      (decide (0x80 ≤ c2.val ∧ c2.val ≤ 0xBF) && utf8_spec_wf rest2) := by
  rcases rest2 with _ | ⟨c3, rest3⟩
  · simp [utf8_spec_wf, h1, h2]
  rcases rest3 with _ | ⟨c4, rest4⟩
  · simp [utf8_spec_wf, h1, h2]
  · simp [utf8_spec_wf, h1, h2]

theorem wf_lead3_cons (c1 c2 c3 : Byte) (rest3 : List Byte)
    (h3 : 0xE0 ≤ c1.val ∧ c1.val ≤ 0xEF) :
    utf8_spec_wf (c1 :: c2 :: c3 :: rest3) =
      (decide ((utf8_cont1_lo c1 ≤ c2.val ∧ c2.val ≤ utf8_cont1_hi c1) ∧
               (0x80 ≤ c3.val ∧ c3.val ≤ 0xBF)) && utf8_spec_wf rest3) := by
  have h1 : ¬ c1.val ≤ 0x7F := by omega
  have h2 : ¬(0xC2 ≤ c1.val ∧ c1.val ≤ 0xDF) := by omega
  rcases rest3 with _ | ⟨c4, rest4⟩
  · simp [utf8_spec_wf, h1, h2, h3]
  · simp [utf8_spec_wf, h1, h2, h3]

theorem wf_lead4_three (c1 c2 c3 : Byte) (h4 : 0xF0 ≤ c1.val ∧ c1.val ≤ 0xF4) :
    utf8_spec_wf [c1, c2, c3] = false := by
  have h1 : ¬ c1.val ≤ 0x7F := by omega
  have h2 : ¬(0xC2 ≤ c1.val ∧ c1.val ≤ 0xDF) := by omega
  have h3 : ¬(0xE0 ≤ c1.val ∧ c1.val ≤ 0xEF) := by omega
  simp [utf8_spec_wf, h1, h2, h3]

theorem wf_lead4_cons (c1 c2 c3 c4 : Byte) (rest4 : List Byte)
    (h4 : 0xF0 ≤ c1.val ∧ c1.val ≤ 0xF4) :
    utf8_spec_wf (c1 :: c2 :: c3 :: c4 :: rest4) =
      (decide ((utf8_cont1_lo c1 ≤ c2.val ∧ c2.val ≤ utf8_cont1_hi c1) ∧
               (0x80 ≤ c3.val ∧ c3.val ≤ 0xBF) ∧
               (0x80 ≤ c4.val ∧ c4.val ≤ 0xBF)) && utf8_spec_wf rest4) := by
  have h1 : ¬ c1.val ≤ 0x7F := by omega
  have h2 : ¬(0xC2 ≤ c1.val ∧ c1.val ≤ 0xDF) := by omega
  have h3 : ¬(0xE0 ≤ c1.val ∧ c1.val ≤ 0xEF) := by omega
  simp [utf8_spec_wf, h1, h2, h3, h4]

theorem wf_cons_bad (c1 : Byte) (rest : List Byte)
    (hbad : (0x80 ≤ c1.val ∧ c1.val ≤ 0xC1) ∨ 0xF5 ≤ c1.val) :
    utf8_spec_wf (c1 :: rest) = false := by
  have h1 : ¬ c1.val ≤ 0x7F := by omega
  have h2 : ¬(0xC2 ≤ c1.val ∧ c1.val ≤ 0xDF) := by omega
  have h3 : ¬(0xE0 ≤ c1.val ∧ c1.val ≤ 0xEF) := by omega
  have h4 : ¬(0xF0 ≤ c1.val ∧ c1.val ≤ 0xF4) := by omega
  rcases rest with _ | ⟨c2, rest2⟩
  · simp [utf8_spec_wf, h1]
  rcases rest2 with _ | ⟨c3, rest3⟩
  · simp [utf8_spec_wf, h1, h2]
  rcases rest3 with _ | ⟨c4, rest4⟩
  · simp [utf8_spec_wf, h1, h2, h3]
  · simp [utf8_spec_wf, h1, h2, h3, h4]

/-- Heart of the development: the DFA run from ACCEPT ends in ACCEPT exactly
on the buffers matching the Unicode encoding table. -/
theorem run6_eq_accept_iff_wf (b : List Byte) :
    (utf8_dfa_run 6 b = 6) ↔ utf8_spec_wf b = true := by
  suffices H : ∀ n (b : List Byte), b.length ≤ n →
      ((utf8_dfa_run 6 b = 6) ↔ utf8_spec_wf b = true) from H b.length b le_rfl
  intro n
  induction n with
  | zero =>
    intro b hb
    have hnil : b = [] := List.length_eq_zero.mp (Nat.le_zero.mp hb)
    subst hnil
    simp [utf8_spec_wf, run_nil]
  | succ n ih =>
    intro b hb
    rcases b with _ | ⟨c1, rest⟩
    · simp [utf8_spec_wf, run_nil]
    have hr : rest.length ≤ n := by simp only [List.length_cons] at hb; omega
    rw [run_cons]
    by_cases h1 : c1.val ≤ 0x7F
    · rw [step6_ascii c1 h1, wf_cons_ascii c1 h1 rest]
      exact ih rest hr
    by_cases h2 : 0xC2 ≤ c1.val ∧ c1.val ≤ 0xDF
    · rw [step6_lead2 c1 h2]
      rcases rest with _ | ⟨c2, rest2⟩
      · rw [run_nil, wf_single c1 h1]; simp
      rw [run_cons, step16_iff c2, wf_lead2_cons c1 c2 rest2 h1 h2]
      by_cases hc2 : 0x80 ≤ c2.val ∧ c2.val ≤ 0xBF
      · rw [if_pos hc2, decide_eq_true hc2, Bool.true_and]
        exact ih rest2 (by simp only [List.length_cons] at hr; omega)
      · rw [if_neg hc2, run_error_absorb, decide_eq_false hc2, Bool.false_and]; simp
    by_cases h3 : 0xE0 ≤ c1.val ∧ c1.val ≤ 0xEF
    · rcases rest with _ | ⟨c2, rest2⟩
      · rw [run_nil, wf_single c1 h1]
        simp [step6_ne_six c1 h1]
      rcases rest2 with _ | ⟨c3, rest3⟩
      · have h2n : ¬(0xC2 ≤ c1.val ∧ c1.val ≤ 0xDF) := by omega
        rw [run_cons, run_nil, step6_lead3_cont c1 c2 h3, wf_two_false c1 c2 h1 h2n]
        split_ifs <;> simp
      rw [run_cons, step6_lead3_cont c1 c2 h3,
        wf_lead3_cons c1 c2 c3 rest3 h3]
      by_cases hc2 : utf8_cont1_lo c1 ≤ c2.val ∧ c2.val ≤ utf8_cont1_hi c1
      · rw [if_pos hc2, run_cons, step16_iff c3]
        by_cases hc3 : 0x80 ≤ c3.val ∧ c3.val ≤ 0xBF
        · rw [if_pos hc3, decide_eq_true (And.intro hc2 hc3), Bool.true_and]
          exact ih rest3 (by simp only [List.length_cons] at hr; omega)
        · rw [if_neg hc3, run_error_absorb,
            decide_eq_false (fun hand => hc3 hand.2), Bool.false_and]
          simp
      · rw [if_neg hc2, run_error_absorb,
          decide_eq_false (fun hand => hc2 hand.1), Bool.false_and]
        simp
    by_cases h4 : 0xF0 ≤ c1.val ∧ c1.val ≤ 0xF4
    · rcases rest with _ | ⟨c2, rest2⟩
      · rw [run_nil, wf_single c1 h1]
        simp [step6_ne_six c1 h1]
      rcases rest2 with _ | ⟨c3, rest3⟩
      · have h2n : ¬(0xC2 ≤ c1.val ∧ c1.val ≤ 0xDF) := by omega
        rw [run_cons, run_nil, step6_lead4_cont c1 c2 h4, wf_two_false c1 c2 h1 h2n]
        split_ifs <;> simp
      rcases rest3 with _ | ⟨c4, rest4⟩
      · rw [run_cons, run_cons, run_nil, step6_lead4_cont c1 c2 h4,
          wf_lead4_three c1 c2 c3 h4]
        by_cases hc2 : utf8_cont1_lo c1 ≤ c2.val ∧ c2.val ≤ utf8_cont1_hi c1
        · rw [if_pos hc2, step1_iff c3]
          split_ifs <;> simp
        · rw [if_neg hc2, step_error_absorb]
          simp
      rw [run_cons, step6_lead4_cont c1 c2 h4,
        wf_lead4_cons c1 c2 c3 c4 rest4 h4]
      by_cases hc2 : utf8_cont1_lo c1 ≤ c2.val ∧ c2.val ≤ utf8_cont1_hi c1
      · rw [if_pos hc2, run_cons, step1_iff c3]
        by_cases hc3 : 0x80 ≤ c3.val ∧ c3.val ≤ 0xBF
        · rw [if_pos hc3, run_cons, step16_iff c4]
          by_cases hc4 : 0x80 ≤ c4.val ∧ c4.val ≤ 0xBF
          · rw [if_pos hc4, decide_eq_true (And.intro hc2 (And.intro hc3 hc4)),
              Bool.true_and]
            exact ih rest4 (by simp only [List.length_cons] at hr; omega)
          · rw [if_neg hc4, run_error_absorb,
              decide_eq_false (fun hand => hc4 hand.2.2), Bool.false_and]
            simp
        · rw [if_neg hc3, run_error_absorb,
            decide_eq_false (fun hand => hc3 hand.2.1), Bool.false_and]
          simp
      · rw [if_neg hc2, run_error_absorb,
          decide_eq_false (fun hand => hc2 hand.1), Bool.false_and]
        simp
    · have hbad : (0x80 ≤ c1.val ∧ c1.val ≤ 0xC1) ∨ 0xF5 ≤ c1.val := by
        have := c1.isLt
        omega
      rw [step6_bad c1 hbad, run_error_absorb, wf_cons_bad c1 rest hbad]
      simp

/-! ## `utf8_maximal_subpart` and `utf8_maximal_prefix` -/

/-- Loop of `utf8_maximal_subpart`: `i` is the number of bytes consumed so
far; on reaching ACCEPT return `i+1`, on ERROR return `i > 0 ? i : 1`,
at the end of the buffer return the total count. -/
def utf8_maximal_subpart_go (state i : Nat) : List Byte → Nat
  | [] => i
  | c :: rest =>
    let st := utf8_dfa_step state c
    if st = S_ACCEPT then i + 1
    else if st = S_ERROR then (if i > 0 then i else 1)
    else utf8_maximal_subpart_go st (i + 1) rest

def utf8_maximal_subpart (src : List Byte) : Nat :=
  utf8_maximal_subpart_go S_ACCEPT 0 src

/-- Loop of `utf8_maximal_prefix`: remember the offset just after the most
recent ACCEPT (`pfx`), stop at ERROR, return the remembered offset. -/
def utf8_maximal_prefix_go (state i pfx : Nat) : List Byte → Nat
  | [] => pfx
  | c :: rest =>
    let st := utf8_dfa_step state c
    if st = S_ACCEPT then utf8_maximal_prefix_go st (i + 1) (i + 1) rest
    else if st = S_ERROR then pfx
    else utf8_maximal_prefix_go st (i + 1) pfx rest

def utf8_maximal_prefix (src : List Byte) : Nat :=
  utf8_maximal_prefix_go S_ACCEPT 0 0 src

/-! ## `utf8_check` with the ASCII fast path -/

/-- `utf8_check_ascii_block16`: the block is pure 7-bit ASCII.  All three C
variants (SSE2 `movemask == 0`, NEON max of the shifted-out high bits
`== 0`, portable OR-reduce of two 8-byte words masked with
`0x8080808080808080` `== 0`) test exactly that every byte has its high bit
clear. -/
def utf8_check_ascii_block16 (s : List Byte) : Bool :=
  s.all fun c => c.val &&& 0x80 == 0

/-- The 16-byte chunk loop of `utf8_check`: while at least 16 bytes remain,
skip the DFA when the state is ACCEPT and the chunk is pure ASCII,
otherwise run the DFA over the chunk; finally run the DFA over the
remaining tail. -/
def utf8_check_loop (state : Nat) (s : List Byte) : Nat :=
  if _h : 16 ≤ s.length then
    let st := if state ≠ S_ACCEPT ∨ utf8_check_ascii_block16 (s.take 16) = false
              then utf8_dfa_run state (s.take 16) else state
    utf8_check_loop st (s.drop 16)
  else utf8_dfa_run state s
termination_by s.length
decreasing_by simp only [List.length_drop]; omega

/-- `utf8_check`: scan the whole buffer from ACCEPT; if the final state is
ACCEPT return `(true, slen)`, otherwise `(false, utf8_maximal_prefix src)`.
The C function stores the cursor through a pointer when non-null; this is
modelled by always returning the pair. -/
def utf8_check (src : List Byte) : Bool × Nat :=
  let state := utf8_check_loop S_ACCEPT src
  if state = S_ACCEPT then (true, src.length)
  else (false, utf8_maximal_prefix src)

def utf8_valid (src : List Byte) : Bool := (utf8_check src).1

/-! ## Streaming API -/

structure utf8_stream_t where
  state : Nat

def utf8_stream_init : utf8_stream_t := ⟨S_ACCEPT⟩

/-- Loop of `utf8_stream_check`: step through the chunk keeping the offset
just after the most recent ACCEPT; on ERROR return the error case with
that offset immediately, otherwise return the final state and offset. -/
def utf8_stream_loop (state i last_accept : Nat) :
    List Byte → Except Nat (Nat × Nat)
  | [] => .ok (state, last_accept)
  | c :: rest =>
    let st := utf8_dfa_step state c
    if st = S_ACCEPT then utf8_stream_loop st (i + 1) (i + 1) rest
    else if st = S_ERROR then .error last_accept
    else utf8_stream_loop st (i + 1) last_accept rest

/-- `utf8_stream_check`: validates `src` continuing from the handle's
persisted state.  `.error cursor` models the C return `(size_t)-1` with
`*cursor` set; `.ok n` models a normal return of `n`.  The first component
of the result is the updated handle. -/
def utf8_stream_check (s : utf8_stream_t) (src : List Byte) (eof : Bool) :
    utf8_stream_t × Except Nat Nat :=
  match utf8_stream_loop s.state 0 0 src with
  | .error la => (⟨S_ACCEPT⟩, .error la)
  | .ok (st, la) =>
    if st ≠ S_ACCEPT then
      if eof then (⟨S_ACCEPT⟩, .error la)
      else (⟨st⟩, .ok la)
    else (⟨st⟩, .ok src.length)

/-- Driver for the streaming-equivalence claim: feed the chunks in order
into a handle, `eof` true only on the last chunk; stop at the first error.
Returns (overall verdict, sum of the per-call consumed counts, final
handle). -/
def utf8_stream_feed (h : utf8_stream_t) :
    List (List Byte) → Bool × Nat × utf8_stream_t
  | [] => (true, 0, h)
  | [c] =>
    match utf8_stream_check h c true with
    | (h', .ok n) => (true, n, h')
    | (h', .error _) => (false, 0, h')
  | c :: rest =>
    match utf8_stream_check h c false with
    | (h', .ok n) =>
      let r := utf8_stream_feed h' rest
      (r.1, n + r.2.1, r.2.2)
    | (h', .error _) => (false, 0, h')

/-- The byte-by-byte table scan with no fast path (spec §9: "a correct
implementation may omit it entirely and always use the table scan"). -/
def utf8_check_plain (src : List Byte) : Bool × Nat :=
  if utf8_dfa_run S_ACCEPT src = S_ACCEPT then (true, src.length)
  else (false, utf8_maximal_prefix src)

example : utf8_maximal_subpart [0xC0, 0x80] = 1 := by decide
example : utf8_maximal_subpart [] = 0 := by decide
example : utf8_maximal_subpart [0xC3] = 1 := by decide
example :
    utf8_stream_check ⟨S_ACCEPT⟩ [0xE2, 0x82] false = (⟨16⟩, .ok 0) := rfl
example : utf8_stream_check ⟨16⟩ [0xAC] true = (⟨6⟩, .ok 1) := rfl
example : utf8_stream_check ⟨6⟩ [0xC3] true = (⟨6⟩, .error 0) := rfl
example :
    utf8_stream_check ⟨6⟩ [0x61, 0x62, 0x80, 0x63, 0x64] false
      = (⟨6⟩, .error 2) := rfl

/-! ## Eliminating the ASCII fast path -/

theorem byte_ascii_of_land (c : Byte) (h : (c.val &&& 0x80 == 0) = true) :
    c.val ≤ 0x7F := by
  revert c; decide

theorem ascii_block_mem (s : List Byte) (h : utf8_check_ascii_block16 s = true) :
    ∀ c ∈ s, c.val ≤ 0x7F := by
  intro c hc
  exact byte_ascii_of_land c (List.all_eq_true.mp h c hc)

/-- The chunk loop computes exactly the plain DFA run: skipping the DFA on
a pure-ASCII chunk while in ACCEPT is a no-op because ASCII bytes map
ACCEPT to ACCEPT. -/
theorem check_loop_eq_run (state : Nat) (s : List Byte) :
    utf8_check_loop state s = utf8_dfa_run state s := by
  suffices H : ∀ n (s : List Byte) state, s.length ≤ n →
      utf8_check_loop state s = utf8_dfa_run state s from H s.length s state le_rfl
  intro n
  induction n with
  | zero =>
    intro s state hs
    rw [utf8_check_loop]
    rw [dif_neg (by omega)]
  | succ n ih =>
    intro s state hs
    rw [utf8_check_loop]
    by_cases h16 : 16 ≤ s.length
    · rw [dif_pos h16]
      have hdrop : (s.drop 16).length ≤ n := by
        simp only [List.length_drop]; omega
      have hsplit : utf8_dfa_run state s =
          utf8_dfa_run (utf8_dfa_run state (s.take 16)) (s.drop 16) := by
        conv_lhs => rw [← List.take_append_drop 16 s]
        rw [run_append]
      by_cases hcond : state ≠ S_ACCEPT ∨ utf8_check_ascii_block16 (s.take 16) = false
      · rw [if_pos hcond, ih (s.drop 16) _ hdrop, hsplit]
      · rw [if_neg hcond]
        push_neg at hcond
        obtain ⟨hstate, hascii⟩ := hcond
        have hascii' : utf8_check_ascii_block16 (s.take 16) = true := by
          cases hval : utf8_check_ascii_block16 (s.take 16)
          · exact absurd hval hascii
          · rfl
        rw [ih (s.drop 16) state hdrop, hsplit, hstate]
        simp only [S_ACCEPT]
        rw [run_ascii (s.take 16) (ascii_block_mem (s.take 16) hascii')]
    · rw [dif_neg h16]

/-- `utf8_check` coincides with the plain byte-by-byte table scan. -/
theorem utf8_check_eq_plain (src : List Byte) :
    utf8_check src = utf8_check_plain src := by
  unfold utf8_check utf8_check_plain
  rw [check_loop_eq_run]

example : utf8_check [] = (true, 0) := by rw [utf8_check_eq_plain]; decide
example : utf8_check [0xC3, 0xA9] = (true, 2) := by
  rw [utf8_check_eq_plain]; decide
example : utf8_check [0xC0, 0x80] = (false, 0) := by
  rw [utf8_check_eq_plain]; decide
example : utf8_check [0xED, 0xA0, 0x80] = (false, 0) := by
  rw [utf8_check_eq_plain]; decide
example : utf8_check [0xF4, 0x90, 0x80, 0x80] = (false, 0) := by
  rw [utf8_check_eq_plain]; decide
example : utf8_check [0xC3, 0xA9, 0xED, 0xA0, 0x80] = (false, 2) := by
  rw [utf8_check_eq_plain]; decide

/-! ## Characterizing the maximal-prefix loop -/

/-- Full characterization of `utf8_maximal_prefix_go`: either no prefix of
`l` ever drives `s` back to ACCEPT and the accumulator is returned, or the
result is `i + k` for the largest `k` whose prefix run ends in ACCEPT. -/
theorem prefix_go_spec : ∀ (l : List Byte) (s i pfx : Nat),
    (utf8_maximal_prefix_go s i pfx l = pfx ∧
      ∀ k, 1 ≤ k → k ≤ l.length → utf8_dfa_run s (l.take k) ≠ 6) ∨
    (∃ k, 1 ≤ k ∧ k ≤ l.length ∧ utf8_maximal_prefix_go s i pfx l = i + k ∧
      utf8_dfa_run s (l.take k) = 6 ∧
      ∀ j, k < j → j ≤ l.length → utf8_dfa_run s (l.take j) ≠ 6) := by
  intro l
  induction l with
  | nil =>
    intro s i pfx
    left
    refine ⟨rfl, ?_⟩
    intro k hk1 hk2
    simp only [List.length_nil] at hk2
    omega
  | cons c rest ih =>
    intro s i pfx
    by_cases h6 : utf8_dfa_step s c = 6
    · have hgo : utf8_maximal_prefix_go s i pfx (c :: rest) =
          utf8_maximal_prefix_go 6 (i + 1) (i + 1) rest := by
        simp [utf8_maximal_prefix_go, S_ACCEPT, h6]
      rcases ih 6 (i + 1) (i + 1) with ⟨hval, hnone⟩ | ⟨k, hk1, hk2, hval, hacc, hmax⟩
      · right
        refine ⟨1, le_rfl, by simp, by rw [hgo, hval], ?_, ?_⟩
        · rw [List.take_succ_cons, List.take_zero, run_cons, h6, run_nil]
        · intro j hj1 hj2
          obtain ⟨j', rfl⟩ : ∃ j', j = j' + 1 := ⟨j - 1, by omega⟩
          rw [List.take_succ_cons, run_cons, h6]
          exact hnone j' (by omega) (by simp only [List.length_cons] at hj2; omega)
      · right
        refine ⟨k + 1, by omega, by simp only [List.length_cons]; omega,
          by rw [hgo, hval]; omega, ?_, ?_⟩
        · rw [List.take_succ_cons, run_cons, h6]; exact hacc
        · intro j hj1 hj2
          obtain ⟨j', rfl⟩ : ∃ j', j = j' + 1 := ⟨j - 1, by omega⟩
          rw [List.take_succ_cons, run_cons, h6]
          exact hmax j' (by omega) (by simp only [List.length_cons] at hj2; omega)
    · by_cases h0 : utf8_dfa_step s c = 0
      · left
        have hgo : utf8_maximal_prefix_go s i pfx (c :: rest) = pfx := by
          simp [utf8_maximal_prefix_go, S_ACCEPT, S_ERROR, h6, h0]
        refine ⟨hgo, ?_⟩
        intro k hk1 hk2
        obtain ⟨k', rfl⟩ : ∃ k', k = k' + 1 := ⟨k - 1, by omega⟩
        rw [List.take_succ_cons, run_cons, h0, run_error_absorb]
        omega
      · have hgo : utf8_maximal_prefix_go s i pfx (c :: rest) =
            utf8_maximal_prefix_go (utf8_dfa_step s c) (i + 1) pfx rest := by
          simp [utf8_maximal_prefix_go, S_ACCEPT, S_ERROR, h6, h0]
        rcases ih (utf8_dfa_step s c) (i + 1) pfx with
          ⟨hval, hnone⟩ | ⟨k, hk1, hk2, hval, hacc, hmax⟩
        · left
          refine ⟨by rw [hgo, hval], ?_⟩
          intro k hk1 hk2
          obtain ⟨k', rfl⟩ : ∃ k', k = k' + 1 := ⟨k - 1, by omega⟩
          rw [List.take_succ_cons, run_cons]
          rcases Nat.eq_zero_or_pos k' with rfl | hpos
          · rw [List.take_zero, run_nil]; exact h6
          · exact hnone k' (by omega) (by simp only [List.length_cons] at hk2; omega)
        · right
          refine ⟨k + 1, by omega, by simp only [List.length_cons]; omega,
            by rw [hgo, hval]; omega, ?_, ?_⟩
          · rw [List.take_succ_cons, run_cons]; exact hacc
          · intro j hj1 hj2
            obtain ⟨j', rfl⟩ : ∃ j', j = j' + 1 := ⟨j - 1, by omega⟩
            rw [List.take_succ_cons, run_cons]
            exact hmax j' (by omega) (by simp only [List.length_cons] at hj2; omega)

theorem maximal_prefix_cases (b : List Byte) :
    ( utf8_maximal_prefix b = 0 ∧
      ∀ k, 1 ≤ k → k ≤ b.length → utf8_dfa_run 6 (b.take k) ≠ 6) ∨
    (∃ k, 1 ≤ k ∧ k ≤ b.length ∧ utf8_maximal_prefix b = k ∧
      utf8_dfa_run 6 (b.take k) = 6 ∧
      ∀ j, k < j → j ≤ b.length → utf8_dfa_run 6 (b.take j) ≠ 6) := by
  have H := prefix_go_spec b 6 0 0
  rcases H with ⟨hval, hnone⟩ | ⟨k, hk1, hk2, hval, hacc, hmax⟩
  · left
    refine ⟨?_, hnone⟩
    simpa [ utf8_maximal_prefix, S_ACCEPT] using hval
  · right
    refine ⟨k, hk1, hk2, ?_, hacc, hmax⟩
    simpa [ utf8_maximal_prefix, S_ACCEPT] using hval

theorem maximal_prefix_le (b : List Byte) : utf8_maximal_prefix b ≤ b.length := by
  rcases maximal_prefix_cases b with ⟨hval, _⟩ | ⟨k, _, hk2, hval, _, _⟩
  · omega
  · omega

theorem maximal_prefix_wf_run (b : List Byte) :
    utf8_dfa_run 6 (b.take ( utf8_maximal_prefix b)) = 6 := by
  rcases maximal_prefix_cases b with ⟨hval, _⟩ | ⟨k, _, _, hval, hacc, _⟩
  · rw [hval, List.take_zero, run_nil]
  · rw [hval]; exact hacc

theorem maximal_prefix_max (b : List Byte) (n : Nat) (hn : n ≤ b.length)
    (hacc : utf8_dfa_run 6 (b.take n) = 6) : n ≤ utf8_maximal_prefix b := by
  rcases maximal_prefix_cases b with ⟨hval, hnone⟩ | ⟨k, hk1, hk2, hval, _, hmax⟩
  · rcases Nat.eq_zero_or_pos n with rfl | hpos
    · omega
    · exact absurd hacc (hnone n hpos hn)
  · rw [hval]
    by_contra hlt
    exact hmax n (by omega) hn hacc

/-! ## Characterizing the maximal-subpart loop -/

/-- Full characterization of `utf8_maximal_subpart_go`: either no prefix of
`l` ever reaches ACCEPT or ERROR (result `i + len`), or the first hit at
length `k` is ACCEPT (result `i + k`) or ERROR (result
`i + (k-1)` clamped to at least 1). -/
theorem subpart_go_spec : ∀ (l : List Byte) (s i : Nat),
    ((∀ k, 1 ≤ k → k ≤ l.length →
        utf8_dfa_run s (l.take k) ≠ 6 ∧ utf8_dfa_run s (l.take k) ≠ 0) ∧
      utf8_maximal_subpart_go s i l = i + l.length) ∨
    (∃ k, 1 ≤ k ∧ k ≤ l.length ∧ utf8_dfa_run s (l.take k) = 6 ∧
      (∀ j, 1 ≤ j → j < k →
        utf8_dfa_run s (l.take j) ≠ 6 ∧ utf8_dfa_run s (l.take j) ≠ 0) ∧
      utf8_maximal_subpart_go s i l = i + k) ∨
    (∃ k, 1 ≤ k ∧ k ≤ l.length ∧ utf8_dfa_run s (l.take k) = 0 ∧
      (∀ j, 1 ≤ j → j < k →
        utf8_dfa_run s (l.take j) ≠ 6 ∧ utf8_dfa_run s (l.take j) ≠ 0) ∧
      utf8_maximal_subpart_go s i l =
        if i + (k - 1) > 0 then i + (k - 1) else 1) := by
  intro l
  induction l with
  | nil =>
    intro s i
    left
    refine ⟨?_, by simp [utf8_maximal_subpart_go]⟩
    intro k hk1 hk2
    simp only [List.length_nil] at hk2
    omega
  | cons c rest ih =>
    intro s i
    by_cases h6 : utf8_dfa_step s c = 6
    · right; left
      refine ⟨1, le_rfl, by simp, ?_, ?_, ?_⟩
      · rw [List.take_succ_cons, List.take_zero, run_cons, h6, run_nil]
      · intro j hj1 hj2; omega
      · simp [utf8_maximal_subpart_go, S_ACCEPT, h6]
    · by_cases h0 : utf8_dfa_step s c = 0
      · right; right
        refine ⟨1, le_rfl, by simp, ?_, ?_, ?_⟩
        · rw [List.take_succ_cons, List.take_zero, run_cons, h0, run_nil]
        · intro j hj1 hj2; omega
        · simp [utf8_maximal_subpart_go, S_ACCEPT, S_ERROR, h6, h0]
      · have hgo : utf8_maximal_subpart_go s i (c :: rest) =
            utf8_maximal_subpart_go (utf8_dfa_step s c) (i + 1) rest := by
          simp [utf8_maximal_subpart_go, S_ACCEPT, S_ERROR, h6, h0]
        rcases ih (utf8_dfa_step s c) (i + 1) with
          ⟨hnone, hval⟩ | ⟨k, hk1, hk2, hhit, hbefore, hval⟩ |
          ⟨k, hk1, hk2, hhit, hbefore, hval⟩
        · left
          constructor
          · intro k hk1 hk2
            obtain ⟨k', rfl⟩ : ∃ k', k = k' + 1 := ⟨k - 1, by omega⟩
            rw [List.take_succ_cons, run_cons]
            rcases Nat.eq_zero_or_pos k' with rfl | hpos
            · rw [List.take_zero, run_nil]; exact ⟨h6, h0⟩
            · exact hnone k' (by omega) (by simp only [List.length_cons] at hk2; omega)
          · rw [hgo, hval]; simp only [List.length_cons]; omega
        · right; left
          refine ⟨k + 1, by omega, by simp only [List.length_cons]; omega, ?_, ?_, ?_⟩
          · rw [List.take_succ_cons, run_cons]; exact hhit
          · intro j hj1 hj2
            obtain ⟨j', rfl⟩ : ∃ j', j = j' + 1 := ⟨j - 1, by omega⟩
            rw [List.take_succ_cons, run_cons]
            rcases Nat.eq_zero_or_pos j' with rfl | hpos
            · rw [List.take_zero, run_nil]; exact ⟨h6, h0⟩
            · exact hbefore j' (by omega) (by omega)
          · rw [hgo, hval]; omega
        · right; right
          refine ⟨k + 1, by omega, by simp only [List.length_cons]; omega, ?_, ?_, ?_⟩
          · rw [List.take_succ_cons, run_cons]; exact hhit
          · intro j hj1 hj2
            obtain ⟨j', rfl⟩ : ∃ j', j = j' + 1 := ⟨j - 1, by omega⟩
            rw [List.take_succ_cons, run_cons]
            rcases Nat.eq_zero_or_pos j' with rfl | hpos
            · rw [List.take_zero, run_nil]; exact ⟨h6, h0⟩
            · exact hbefore j' (by omega) (by omega)
          · rw [hgo, hval]
            rw [if_pos (by omega), if_pos (by omega)]
            omega

theorem maximal_subpart_cases (b : List Byte) :
    ((∀ k, 1 ≤ k → k ≤ b.length →
        utf8_dfa_run 6 (b.take k) ≠ 6 ∧ utf8_dfa_run 6 (b.take k) ≠ 0) ∧
      utf8_maximal_subpart b = b.length) ∨
    (∃ k, 1 ≤ k ∧ k ≤ b.length ∧ utf8_dfa_run 6 (b.take k) = 6 ∧
      (∀ j, 1 ≤ j → j < k →
        utf8_dfa_run 6 (b.take j) ≠ 6 ∧ utf8_dfa_run 6 (b.take j) ≠ 0) ∧
      utf8_maximal_subpart b = k) ∨
    (∃ k, 1 ≤ k ∧ k ≤ b.length ∧ utf8_dfa_run 6 (b.take k) = 0 ∧
      (∀ j, 1 ≤ j → j < k →
        utf8_dfa_run 6 (b.take j) ≠ 6 ∧ utf8_dfa_run 6 (b.take j) ≠ 0) ∧
      utf8_maximal_subpart b = if k - 1 > 0 then k - 1 else 1) := by
  have H := subpart_go_spec b 6 0
  rcases H with ⟨hnone, hval⟩ | ⟨k, hk1, hk2, hhit, hbefore, hval⟩ |
    ⟨k, hk1, hk2, hhit, hbefore, hval⟩
  · left
    exact ⟨hnone, by simpa [utf8_maximal_subpart, S_ACCEPT] using hval⟩
  · right; left
    exact ⟨k, hk1, hk2, hhit, hbefore,
      by simpa [utf8_maximal_subpart, S_ACCEPT] using hval⟩
  · right; right
    refine ⟨k, hk1, hk2, hhit, hbefore, ?_⟩
    have : utf8_maximal_subpart b = if 0 + (k - 1) > 0 then 0 + (k - 1) else 1 := by
      simpa [utf8_maximal_subpart, S_ACCEPT] using hval
    simpa using this

theorem maximal_subpart_nil : utf8_maximal_subpart [] = 0 := rfl

theorem maximal_subpart_le (b : List Byte) : utf8_maximal_subpart b ≤ b.length ∨ b = [] := by
  rcases b with _ | ⟨c, rest⟩
  · right; rfl
  left
  rcases maximal_subpart_cases (c :: rest) with ⟨_, hval⟩ | ⟨k, hk1, hk2, _, _, hval⟩ |
    ⟨k, hk1, hk2, _, _, hval⟩
  · omega
  · omega
  · rw [hval]
    have : 1 ≤ (c :: rest).length := by simp
    split_ifs <;> omega

theorem maximal_subpart_pos (b : List Byte) (hb : b ≠ []) :
    1 ≤ utf8_maximal_subpart b := by
  rcases maximal_subpart_cases b with ⟨_, hval⟩ | ⟨k, hk1, _, _, _, hval⟩ |
    ⟨k, hk1, _, _, _, hval⟩
  · rw [hval]
    rcases b with _ | ⟨c, rest⟩
    · exact absurd rfl hb
    · simp
  · omega
  · rw [hval]; split_ifs <;> omega

/-! ## The DFA hits ACCEPT or ERROR within four bytes from ACCEPT -/

theorem step16_split (c : Byte) : utf8_dfa_step 16 c = 6 ∨ utf8_dfa_step 16 c = 0 := by
  revert c; decide

theorem step6_split (c : Byte) :
    utf8_dfa_step 6 c = 6 ∨ utf8_dfa_step 6 c = 0 ∨ utf8_dfa_step 6 c = 16 ∨
    utf8_dfa_step 6 c = 1 ∨ utf8_dfa_step 6 c = 19 ∨ utf8_dfa_step 6 c = 25 ∨
    utf8_dfa_step 6 c = 11 ∨ utf8_dfa_step 6 c = 18 ∨ utf8_dfa_step 6 c = 24 := by
  revert c; decide

theorem step_rank2_split (s : Nat) (hs : s = 1 ∨ s = 19 ∨ s = 25) (c : Byte) :
    utf8_dfa_step s c = 16 ∨ utf8_dfa_step s c = 0 := by
  rcases hs with rfl | rfl | rfl <;> revert c <;> decide

theorem step_rank3_split (s : Nat) (hs : s = 11 ∨ s = 18 ∨ s = 24) (c : Byte) :
    utf8_dfa_step s c = 1 ∨ utf8_dfa_step s c = 0 := by
  rcases hs with rfl | rfl | rfl <;> revert c <;> decide

theorem hit_within_four (b : List Byte) (hb : 4 ≤ b.length) :
    ∃ k, 1 ≤ k ∧ k ≤ 4 ∧
      (utf8_dfa_run 6 (b.take k) = 6 ∨ utf8_dfa_run 6 (b.take k) = 0) := by
  rcases b with _ | ⟨c1, b⟩
  · simp at hb
  rcases b with _ | ⟨c2, b⟩
  · simp at hb
  rcases b with _ | ⟨c3, b⟩
  · simp at hb
  rcases b with _ | ⟨c4, rest⟩
  · simp at hb
  have e1 : utf8_dfa_run 6 ((c1 :: c2 :: c3 :: c4 :: rest).take 1) =
      utf8_dfa_step 6 c1 := by
    simp [List.take_succ_cons, run_cons, run_nil]
  have e2 : utf8_dfa_run 6 ((c1 :: c2 :: c3 :: c4 :: rest).take 2) =
      utf8_dfa_step (utf8_dfa_step 6 c1) c2 := by
    simp [List.take_succ_cons, run_cons, run_nil]
  have e3 : utf8_dfa_run 6 ((c1 :: c2 :: c3 :: c4 :: rest).take 3) =
      utf8_dfa_step (utf8_dfa_step (utf8_dfa_step 6 c1) c2) c3 := by
    simp [List.take_succ_cons, run_cons, run_nil]
  have e4 : utf8_dfa_run 6 ((c1 :: c2 :: c3 :: c4 :: rest).take 4) =
      utf8_dfa_step (utf8_dfa_step (utf8_dfa_step (utf8_dfa_step 6 c1) c2) c3) c4 := by
    simp [List.take_succ_cons, run_cons, run_nil]
  rcases step6_split c1 with h1 | h1 | h1 | h1 | h1 | h1 | h1 | h1 | h1
  · exact ⟨1, by omega, by omega, by rw [e1, h1]; left; rfl⟩
  · exact ⟨1, by omega, by omega, by rw [e1, h1]; right; rfl⟩
  · rcases step16_split c2 with h2 | h2
    · exact ⟨2, by omega, by omega, by rw [e2, h1, h2]; left; rfl⟩
    · exact ⟨2, by omega, by omega, by rw [e2, h1, h2]; right; rfl⟩
  · rcases step_rank2_split (utf8_dfa_step 6 c1) (by rw [h1]; simp) c2 with h2 | h2
    · rcases step16_split c3 with h3 | h3
      · exact ⟨3, by omega, by omega, by rw [e3, h2, h3]; left; rfl⟩
      · exact ⟨3, by omega, by omega, by rw [e3, h2, h3]; right; rfl⟩
    · exact ⟨2, by omega, by omega, by rw [e2, h2]; right; rfl⟩
  · rcases step_rank2_split (utf8_dfa_step 6 c1) (by rw [h1]; simp) c2 with h2 | h2
    · rcases step16_split c3 with h3 | h3
      · exact ⟨3, by omega, by omega, by rw [e3, h2, h3]; left; rfl⟩
      · exact ⟨3, by omega, by omega, by rw [e3, h2, h3]; right; rfl⟩
    · exact ⟨2, by omega, by omega, by rw [e2, h2]; right; rfl⟩
  · rcases step_rank2_split (utf8_dfa_step 6 c1) (by rw [h1]; simp) c2 with h2 | h2
    · rcases step16_split c3 with h3 | h3
      · exact ⟨3, by omega, by omega, by rw [e3, h2, h3]; left; rfl⟩
      · exact ⟨3, by omega, by omega, by rw [e3, h2, h3]; right; rfl⟩
    · exact ⟨2, by omega, by omega, by rw [e2, h2]; right; rfl⟩
  · rcases step_rank3_split (utf8_dfa_step 6 c1) (by rw [h1]; simp) c2 with h2 | h2
    · rcases step_rank2_split 1 (by simp) c3 with h3 | h3
      · rcases step16_split c4 with h4 | h4
        · exact ⟨4, by omega, by omega, by rw [e4, h2, h3, h4]; left; rfl⟩
        · exact ⟨4, by omega, by omega, by rw [e4, h2, h3, h4]; right; rfl⟩
      · exact ⟨3, by omega, by omega, by rw [e3, h2, h3]; right; rfl⟩
    · exact ⟨2, by omega, by omega, by rw [e2, h2]; right; rfl⟩
  · rcases step_rank3_split (utf8_dfa_step 6 c1) (by rw [h1]; simp) c2 with h2 | h2
    · rcases step_rank2_split 1 (by simp) c3 with h3 | h3
      · rcases step16_split c4 with h4 | h4
        · exact ⟨4, by omega, by omega, by rw [e4, h2, h3, h4]; left; rfl⟩
        · exact ⟨4, by omega, by omega, by rw [e4, h2, h3, h4]; right; rfl⟩
      · exact ⟨3, by omega, by omega, by rw [e3, h2, h3]; right; rfl⟩
    · exact ⟨2, by omega, by omega, by rw [e2, h2]; right; rfl⟩
  · rcases step_rank3_split (utf8_dfa_step 6 c1) (by rw [h1]; simp) c2 with h2 | h2
    · rcases step_rank2_split 1 (by simp) c3 with h3 | h3
      · rcases step16_split c4 with h4 | h4
        · exact ⟨4, by omega, by omega, by rw [e4, h2, h3, h4]; left; rfl⟩
        · exact ⟨4, by omega, by omega, by rw [e4, h2, h3, h4]; right; rfl⟩
      · exact ⟨3, by omega, by omega, by rw [e3, h2, h3]; right; rfl⟩
    · exact ⟨2, by omega, by omega, by rw [e2, h2]; right; rfl⟩

/-! ## Characterizing the streaming loop -/

/-- Full characterization of `utf8_stream_loop`: the returned `last_accept`
is the entry value when no prefix of the chunk drives the state to ACCEPT
and otherwise `i` plus the largest such prefix length; the loop returns
`.error` exactly when some prefix of the chunk drives the state to ERROR,
and otherwise `.ok` with the full run of the chunk. -/
theorem stream_loop_spec : ∀ (l : List Byte) (s i la : Nat),
    ∃ LA : Nat,
      ((LA = la ∧ ∀ k, 1 ≤ k → k ≤ l.length → utf8_dfa_run s (l.take k) ≠ 6) ∨
       (∃ ka, 1 ≤ ka ∧ ka ≤ l.length ∧ LA = i + ka ∧
         utf8_dfa_run s (l.take ka) = 6 ∧
         ∀ j, ka < j → j ≤ l.length → utf8_dfa_run s (l.take j) ≠ 6)) ∧
      (((∀ k, 1 ≤ k → k ≤ l.length → utf8_dfa_run s (l.take k) ≠ 0) ∧
         utf8_stream_loop s i la l = .ok (utf8_dfa_run s l, LA)) ∨
       ((∃ k0, 1 ≤ k0 ∧ k0 ≤ l.length ∧ utf8_dfa_run s (l.take k0) = 0) ∧
         utf8_stream_loop s i la l = .error LA)) := by
  intro l
  induction l with
  | nil =>
    intro s i la
    refine ⟨la, Or.inl ⟨rfl, ?_⟩, Or.inl ⟨?_, ?_⟩⟩
    · intro k hk1 hk2; simp only [List.length_nil] at hk2; omega
    · intro k hk1 hk2; simp only [List.length_nil] at hk2; omega
    · rw [run_nil]; rfl
  | cons c rest ih =>
    intro s i la
    by_cases h6 : utf8_dfa_step s c = 6
    · have hgo : utf8_stream_loop s i la (c :: rest) =
          utf8_stream_loop 6 (i + 1) (i + 1) rest := by
        simp [utf8_stream_loop, S_ACCEPT, h6]
      obtain ⟨LA, hla, hres⟩ := ih 6 (i + 1) (i + 1)
      refine ⟨LA, ?_, ?_⟩
      · rcases hla with ⟨hval, hnone⟩ | ⟨ka, hka1, hka2, hval, hacc, hmax⟩
        · right
          refine ⟨1, le_rfl, by simp, by omega, ?_, ?_⟩
          · rw [List.take_succ_cons, List.take_zero, run_cons, h6, run_nil]
          · intro j hj1 hj2
            obtain ⟨j', rfl⟩ : ∃ j', j = j' + 1 := ⟨j - 1, by omega⟩
            rw [List.take_succ_cons, run_cons, h6]
            exact hnone j' (by omega) (by simp only [List.length_cons] at hj2; omega)
        · right
          refine ⟨ka + 1, by omega, by simp only [List.length_cons]; omega,
            by omega, ?_, ?_⟩
          · rw [List.take_succ_cons, run_cons, h6]; exact hacc
          · intro j hj1 hj2
            obtain ⟨j', rfl⟩ : ∃ j', j = j' + 1 := ⟨j - 1, by omega⟩
            rw [List.take_succ_cons, run_cons, h6]
            exact hmax j' (by omega) (by simp only [List.length_cons] at hj2; omega)
      · rcases hres with ⟨hnozero, hval⟩ | ⟨⟨k0, hk01, hk02, hk0⟩, hval⟩
        · left
          refine ⟨?_, ?_⟩
          · intro k hk1 hk2
            obtain ⟨k', rfl⟩ : ∃ k', k = k' + 1 := ⟨k - 1, by omega⟩
            rw [List.take_succ_cons, run_cons, h6]
            rcases Nat.eq_zero_or_pos k' with rfl | hpos
            · rw [List.take_zero, run_nil]; omega
            · exact hnozero k' (by omega) (by simp only [List.length_cons] at hk2; omega)
          · rw [hgo, hval, run_cons, h6]
        · right
          refine ⟨⟨k0 + 1, by omega, by simp only [List.length_cons]; omega, ?_⟩, ?_⟩
          · rw [List.take_succ_cons, run_cons, h6]; exact hk0
          · rw [hgo, hval]
    · by_cases h0 : utf8_dfa_step s c = 0
      · have hgo : utf8_stream_loop s i la (c :: rest) = .error la := by
          simp [utf8_stream_loop, S_ACCEPT, S_ERROR, h6, h0]
        refine ⟨la, Or.inl ⟨rfl, ?_⟩, Or.inr ⟨⟨1, le_rfl, by simp, ?_⟩, hgo⟩⟩
        · intro k hk1 hk2
          obtain ⟨k', rfl⟩ : ∃ k', k = k' + 1 := ⟨k - 1, by omega⟩
          rw [List.take_succ_cons, run_cons, h0]
          rcases Nat.eq_zero_or_pos k' with rfl | hpos
          · rw [List.take_zero, run_nil]; omega
          · rw [run_error_absorb]; omega
        · rw [List.take_succ_cons, List.take_zero, run_cons, h0, run_nil]
      · have hgo : utf8_stream_loop s i la (c :: rest) =
            utf8_stream_loop (utf8_dfa_step s c) (i + 1) la rest := by
          simp [utf8_stream_loop, S_ACCEPT, S_ERROR, h6, h0]
        obtain ⟨LA, hla, hres⟩ := ih (utf8_dfa_step s c) (i + 1) la
        refine ⟨LA, ?_, ?_⟩
        · rcases hla with ⟨hval, hnone⟩ | ⟨ka, hka1, hka2, hval, hacc, hmax⟩
          · left
            refine ⟨hval, ?_⟩
            intro k hk1 hk2
            obtain ⟨k', rfl⟩ : ∃ k', k = k' + 1 := ⟨k - 1, by omega⟩
            rw [List.take_succ_cons, run_cons]
            rcases Nat.eq_zero_or_pos k' with rfl | hpos
            · rw [List.take_zero, run_nil]; exact h6
            · exact hnone k' (by omega) (by simp only [List.length_cons] at hk2; omega)
          · right
            refine ⟨ka + 1, by omega, by simp only [List.length_cons]; omega,
              by omega, ?_, ?_⟩
            · rw [List.take_succ_cons, run_cons]; exact hacc
            · intro j hj1 hj2
              obtain ⟨j', rfl⟩ : ∃ j', j = j' + 1 := ⟨j - 1, by omega⟩
              rw [List.take_succ_cons, run_cons]
              exact hmax j' (by omega) (by simp only [List.length_cons] at hj2; omega)
        · rcases hres with ⟨hnozero, hval⟩ | ⟨⟨k0, hk01, hk02, hk0⟩, hval⟩
          · left
            refine ⟨?_, ?_⟩
            · intro k hk1 hk2
              obtain ⟨k', rfl⟩ : ∃ k', k = k' + 1 := ⟨k - 1, by omega⟩
              rw [List.take_succ_cons, run_cons]
              rcases Nat.eq_zero_or_pos k' with rfl | hpos
              · rw [List.take_zero, run_nil]; exact h0
              · exact hnozero k' (by omega) (by simp only [List.length_cons] at hk2; omega)
            · rw [hgo, hval, run_cons]
          · right
            refine ⟨⟨k0 + 1, by omega, by simp only [List.length_cons]; omega, ?_⟩, ?_⟩
            · rw [List.take_succ_cons, run_cons]; exact hk0
            · rw [hgo, hval]

theorem run_zero_of_prefix_zero (s : Nat) (l : List Byte) (k : Nat)
    (h : utf8_dfa_run s (l.take k) = 0) : utf8_dfa_run s l = 0 := by
  conv_lhs => rw [← List.take_append_drop k l]
  rw [run_append, h, run_error_absorb]

/-- Case analysis of a single `utf8_stream_check` call, at the level needed
for the streaming-equivalence proofs. -/
theorem stream_check_spec (s : Nat) (c : List Byte) (eof : Bool) :
    (utf8_stream_check ⟨s⟩ c eof = (⟨utf8_dfa_run s c⟩, .ok c.length) ∧
       utf8_dfa_run s c = 6) ∨
    (∃ n, utf8_stream_check ⟨s⟩ c eof = (⟨utf8_dfa_run s c⟩, .ok n) ∧
       utf8_dfa_run s c ≠ 6 ∧ eof = false ∧
       (∀ k, 1 ≤ k → k ≤ c.length → utf8_dfa_run s (c.take k) ≠ 0)) ∨
    (∃ cur, utf8_stream_check ⟨s⟩ c eof = (⟨6⟩, .error cur) ∧
       (utf8_dfa_run s c = 0 ∨ (eof = true ∧ utf8_dfa_run s c ≠ 6))) := by
  obtain ⟨LA, hla, hres⟩ := stream_loop_spec c s 0 0
  rcases hres with ⟨hnozero, hval⟩ | ⟨⟨k0, hk01, hk02, hk0⟩, hval⟩
  · by_cases h6 : utf8_dfa_run s c = 6
    · left
      refine ⟨?_, h6⟩
      simp [utf8_stream_check, hval, S_ACCEPT, h6]
    · cases eof with
      | true =>
        right; right
        refine ⟨LA, ?_, Or.inr ⟨rfl, h6⟩⟩
        simp [utf8_stream_check, hval, S_ACCEPT, h6]
      | false =>
        right; left
        refine ⟨LA, ?_, h6, rfl, hnozero⟩
        simp [utf8_stream_check, hval, S_ACCEPT, h6]
  · right; right
    refine ⟨LA, ?_, Or.inl (run_zero_of_prefix_zero s c k0 hk0)⟩
    simp [utf8_stream_check, hval, S_ACCEPT]

/-- Verdict equivalence of the chunked scan with the one-shot DFA run, for
a nonempty chunk list and a non-ERROR starting state. -/
theorem feed_verdict : ∀ (chunks : List (List Byte)) (s : Nat), s ≠ 0 →
    chunks ≠ [] →
    ((utf8_stream_feed ⟨s⟩ chunks).1 = true ↔ utf8_dfa_run s chunks.flatten = 6) := by
  intro chunks
  induction chunks with
  | nil => intro s _ hne; exact absurd rfl hne
  | cons c rest ih =>
    intro s hs _
    rcases rest with _ | ⟨c2, rest2⟩
    · -- final chunk, eof = true
      rcases stream_check_spec s c true with ⟨hval, h6⟩ |
        ⟨n, hval, h6, heof, _⟩ | ⟨cur, hval, _hc⟩
      · simp [utf8_stream_feed, hval, List.flatten, h6]
      · exact absurd heof (by simp)
      · have h6 : utf8_dfa_run s c ≠ 6 := by
          rcases _hc with h | ⟨_, h⟩
          · rw [h]; omega
          · exact h
        simp [utf8_stream_feed, hval, List.flatten, h6]
    · -- non-final chunk, eof = false
      rcases stream_check_spec s c false with ⟨hval, h6⟩ |
        ⟨n, hval, h6, _, hnozero⟩ | ⟨cur, hval, hc⟩
      · have hrun : utf8_dfa_run s (c :: c2 :: rest2).flatten =
            utf8_dfa_run (utf8_dfa_run s c) (c2 :: rest2).flatten := by
          rw [List.flatten_cons, run_append]
        rw [hrun]
        have := ih (utf8_dfa_run s c) (by omega) (by simp)
        simp only [utf8_stream_feed, hval]
        exact this
      · have hrun : utf8_dfa_run s (c :: c2 :: rest2).flatten =
            utf8_dfa_run (utf8_dfa_run s c) (c2 :: rest2).flatten := by
          rw [List.flatten_cons, run_append]
        rw [hrun]
        have hsc : utf8_dfa_run s c ≠ 0 := by
          rcases c with _ | ⟨cb, cr⟩
          · rw [run_nil]; exact hs
          · have := hnozero (cb :: cr).length (by simp) le_rfl
            rw [List.take_length] at this
            exact this
        have := ih (utf8_dfa_run s c) hsc (by simp)
        simp only [utf8_stream_feed, hval]
        exact this
      · rcases hc with h0 | ⟨habs, _⟩
        · have hrun : utf8_dfa_run s (c ++ (c2 ++ rest2.flatten)) = 0 := by
            rw [run_append, h0, run_error_absorb]
          simp [utf8_stream_feed, hval, hrun]
        · exact absurd habs (by simp)

/-! ## Well-formedness as a concatenation of 1-4-byte forms -/

/-- A single well-formed UTF-8 sequence of 1-4 bytes per the Unicode
encoding table (spec §8, glossary): ASCII, or a lead byte with its
restricted first continuation and plain continuations. -/
inductive Utf8Form : List Byte → Prop
  | one (c1 : Byte) : c1.val ≤ 0x7F → Utf8Form [c1]
  | two (c1 c2 : Byte) : 0xC2 ≤ c1.val → c1.val ≤ 0xDF →
      0x80 ≤ c2.val → c2.val ≤ 0xBF → Utf8Form [c1, c2]
  | three (c1 c2 c3 : Byte) : 0xE0 ≤ c1.val → c1.val ≤ 0xEF →
      utf8_cont1_lo c1 ≤ c2.val → c2.val ≤ utf8_cont1_hi c1 →
      0x80 ≤ c3.val → c3.val ≤ 0xBF → Utf8Form [c1, c2, c3]
  | four (c1 c2 c3 c4 : Byte) : 0xF0 ≤ c1.val → c1.val ≤ 0xF4 →
      utf8_cont1_lo c1 ≤ c2.val → c2.val ≤ utf8_cont1_hi c1 →
      0x80 ≤ c3.val → c3.val ≤ 0xBF → 0x80 ≤ c4.val → c4.val ≤ 0xBF →
      Utf8Form [c1, c2, c3, c4]

/-- "The buffer is a concatenation of well-formed UTF-8 sequences of 1 to
4 bytes" (claim C1 / spec §8). -/
inductive Utf8Concat : List Byte → Prop
  | nil : Utf8Concat []
  | cons (f rest : List Byte) : Utf8Form f → Utf8Concat rest →
      Utf8Concat (f ++ rest)

theorem wf_of_concat (b : List Byte) (h : Utf8Concat b) : utf8_spec_wf b = true := by
  induction h with
  | nil => rfl
  | cons f rest hf _hrest ih =>
    cases hf with
    | one c1 h1 =>
      rw [List.cons_append, List.nil_append, wf_cons_ascii c1 h1]
      exact ih
    | two c1 c2 ha hb hc hd =>
      have h1 : ¬ c1.val ≤ 0x7F := by omega
      simp only [List.cons_append, List.nil_append]
      rw [wf_lead2_cons c1 c2 rest h1 ⟨ha, hb⟩, decide_eq_true ⟨hc, hd⟩,
        Bool.true_and]
      exact ih
    | three c1 c2 c3 ha hb hc hd he hf =>
      simp only [List.cons_append, List.nil_append]
      rw [wf_lead3_cons c1 c2 c3 rest ⟨ha, hb⟩,
        decide_eq_true ⟨⟨hc, hd⟩, he, hf⟩, Bool.true_and]
      exact ih
    | four c1 c2 c3 c4 ha hb hc hd he hf hg hh =>
      simp only [List.cons_append, List.nil_append]
      rw [wf_lead4_cons c1 c2 c3 c4 rest ⟨ha, hb⟩,
        decide_eq_true ⟨⟨hc, hd⟩, ⟨he, hf⟩, hg, hh⟩, Bool.true_and]
      exact ih

theorem concat_of_wf (b : List Byte) (h : utf8_spec_wf b = true) : Utf8Concat b := by
  suffices H : ∀ n (b : List Byte), b.length ≤ n → utf8_spec_wf b = true →
      Utf8Concat b from H b.length b le_rfl h
  clear h b
  intro n
  induction n with
  | zero =>
    intro b hb _
    have hnil : b = [] := List.length_eq_zero.mp (Nat.le_zero.mp hb)
    subst hnil
    exact Utf8Concat.nil
  | succ n ih =>
    intro b hb hwf
    rcases b with _ | ⟨c1, rest⟩
    · exact Utf8Concat.nil
    have hr : rest.length ≤ n := by simp only [List.length_cons] at hb; omega
    by_cases h1 : c1.val ≤ 0x7F
    · rw [wf_cons_ascii c1 h1 rest] at hwf
      exact Utf8Concat.cons [c1] rest (Utf8Form.one c1 h1) (ih rest hr hwf)
    by_cases h2 : 0xC2 ≤ c1.val ∧ c1.val ≤ 0xDF
    · rcases rest with _ | ⟨c2, rest2⟩
      · rw [wf_single c1 h1] at hwf; exact absurd hwf (by simp)
      rw [wf_lead2_cons c1 c2 rest2 h1 h2] at hwf
      simp only [Bool.and_eq_true, decide_eq_true_eq] at hwf
      obtain ⟨⟨hc, hd⟩, hwf2⟩ := hwf
      exact Utf8Concat.cons [c1, c2] rest2
        (Utf8Form.two c1 c2 h2.1 h2.2 hc hd)
        (ih rest2 (by simp only [List.length_cons] at hr; omega) hwf2)
    by_cases h3 : 0xE0 ≤ c1.val ∧ c1.val ≤ 0xEF
    · rcases rest with _ | ⟨c2, rest2⟩
      · rw [wf_single c1 h1] at hwf; exact absurd hwf (by simp)
      rcases rest2 with _ | ⟨c3, rest3⟩
      · rw [wf_two_false c1 c2 h1 h2] at hwf; exact absurd hwf (by simp)
      rw [wf_lead3_cons c1 c2 c3 rest3 h3] at hwf
      simp only [Bool.and_eq_true, decide_eq_true_eq] at hwf
      obtain ⟨⟨⟨hc, hd⟩, he, hf⟩, hwf3⟩ := hwf
      exact Utf8Concat.cons [c1, c2, c3] rest3
        (Utf8Form.three c1 c2 c3 h3.1 h3.2 hc hd he hf)
        (ih rest3 (by simp only [List.length_cons] at hr; omega) hwf3)
    by_cases h4 : 0xF0 ≤ c1.val ∧ c1.val ≤ 0xF4
    · rcases rest with _ | ⟨c2, rest2⟩
      · rw [wf_single c1 h1] at hwf; exact absurd hwf (by simp)
      rcases rest2 with _ | ⟨c3, rest3⟩
      · rw [wf_two_false c1 c2 h1 h2] at hwf; exact absurd hwf (by simp)
      rcases rest3 with _ | ⟨c4, rest4⟩
      · rw [wf_lead4_three c1 c2 c3 h4] at hwf; exact absurd hwf (by simp)
      rw [wf_lead4_cons c1 c2 c3 c4 rest4 h4] at hwf
      simp only [Bool.and_eq_true, decide_eq_true_eq] at hwf
      obtain ⟨⟨⟨hc, hd⟩, ⟨he, hf⟩, hg, hh⟩, hwf4⟩ := hwf
      exact Utf8Concat.cons [c1, c2, c3, c4] rest4
        (Utf8Form.four c1 c2 c3 c4 h4.1 h4.2 hc hd he hf hg hh)
        (ih rest4 (by simp only [List.length_cons] at hr; omega) hwf4)
    · have hbad : (0x80 ≤ c1.val ∧ c1.val ≤ 0xC1) ∨ 0xF5 ≤ c1.val := by
        have := c1.isLt
        omega
      rw [wf_cons_bad c1 rest hbad] at hwf
      exact absurd hwf (by simp)

theorem wf_iff_concat (b : List Byte) : utf8_spec_wf b = true ↔ Utf8Concat b :=
  ⟨concat_of_wf b, wf_of_concat b⟩

/-! ## Claim theorems -/

/-- C1: for every byte buffer `b` (any length, including 0), `utf8_check b`
returns valid = true iff `b` is a concatenation of well-formed UTF-8
sequences of 1 to 4 bytes per the Unicode encoding table (no overlongs, no
surrogates, no code point above U+10FFFF, all encoded in `Utf8Concat`);
when valid, the reported cursor equals the buffer length. -/
theorem claim_C1 (b : List Byte) :
    ((utf8_check b).1 = true ↔ Utf8Concat b) ∧
    ((utf8_check b).1 = true → (utf8_check b).2 = b.length) := by
  rw [utf8_check_eq_plain]
  simp only [utf8_check_plain, S_ACCEPT]
  by_cases h : utf8_dfa_run 6 b = 6
  · simp only [if_pos h]
    refine ⟨⟨fun _ => ?_, fun _ => by trivial⟩, fun _ => by trivial⟩
    exact concat_of_wf b ((run6_eq_accept_iff_wf b).mp h)
  · simp only [if_neg h]
    refine ⟨⟨fun hfalse => ?_, fun hcon => ?_⟩, fun hfalse => ?_⟩
    · exact absurd hfalse (by simp)
    · exact absurd ((run6_eq_accept_iff_wf b).mpr (wf_of_concat b hcon)) h
    · exact absurd hfalse (by simp)

theorem claim_C1_witness :
    (utf8_check [0xC3, 0xA9]).1 = true ∧ (utf8_check [0xC3, 0xA9]).2 = 2 :=
  ⟨by rw [utf8_check_eq_plain]; decide,
   (claim_C1 [0xC3, 0xA9]).2 (by rw [utf8_check_eq_plain]; decide)⟩

/-- C2: whenever `utf8_check b` reports invalid, the stored cursor equals
`utf8_maximal_prefix b`, which is the length of the longest prefix of `b`
that is itself entirely well-formed UTF-8. -/
theorem claim_C2 (b : List Byte) (h : (utf8_check b).1 = false) :
    (utf8_check b).2 = utf8_maximal_prefix b ∧
    utf8_spec_wf (b.take ( utf8_maximal_prefix b)) = true ∧
    ∀ n, n ≤ b.length → utf8_spec_wf (b.take n) = true →
      n ≤ utf8_maximal_prefix b := by
  rw [utf8_check_eq_plain] at h ⊢
  simp only [utf8_check_plain, S_ACCEPT] at h ⊢
  by_cases hrun : utf8_dfa_run 6 b = 6
  · rw [if_pos hrun] at h; exact absurd h (by simp)
  refine ⟨by rw [if_neg hrun], ?_, ?_⟩
  · exact (run6_eq_accept_iff_wf _).mp (maximal_prefix_wf_run b)
  · intro n hn hwfn
    exact maximal_prefix_max b n hn ((run6_eq_accept_iff_wf _).mpr hwfn)

theorem claim_C2_witness :
    (utf8_check [0x41, 0xC0, 0x80]).2 = utf8_maximal_prefix [0x41, 0xC0, 0x80] ∧
    utf8_spec_wf (List.take ( utf8_maximal_prefix [0x41, 0xC0, 0x80])
      [0x41, 0xC0, 0x80]) = true ∧
    ∀ n, n ≤ ([0x41, 0xC0, 0x80] : List Byte).length →
      utf8_spec_wf (List.take n [0x41, 0xC0, 0x80]) = true →
      n ≤ utf8_maximal_prefix [0x41, 0xC0, 0x80] :=
  claim_C2 [0x41, 0xC0, 0x80] (by rw [utf8_check_eq_plain]; decide)

/-- C3: `utf8_maximal_subpart b`, scanning from a fresh ACCEPT state,
returns `i+1` if the state first reaches ACCEPT at offset `i`; `max i 1`
if it first reaches ERROR at offset `i`; the buffer length if neither
happens; and the result is 0 only for empty input, otherwise in
`[1, len b]`.  (The state after consuming byte `j` is
`utf8_dfa_run 6 (b.take (j+1))`.) -/
theorem claim_C3 (b : List Byte) :
    (∀ i, i < b.length →
      (∀ j, j < i → utf8_dfa_run 6 (b.take (j + 1)) ≠ 6 ∧
        utf8_dfa_run 6 (b.take (j + 1)) ≠ 0) →
      utf8_dfa_run 6 (b.take (i + 1)) = 6 →
      utf8_maximal_subpart b = i + 1) ∧
    (∀ i, i < b.length →
      (∀ j, j < i → utf8_dfa_run 6 (b.take (j + 1)) ≠ 6 ∧
        utf8_dfa_run 6 (b.take (j + 1)) ≠ 0) →
      utf8_dfa_run 6 (b.take (i + 1)) = 0 →
      utf8_maximal_subpart b = max i 1) ∧
    ((∀ i, i < b.length → utf8_dfa_run 6 (b.take (i + 1)) ≠ 6 ∧
        utf8_dfa_run 6 (b.take (i + 1)) ≠ 0) →
      utf8_maximal_subpart b = b.length) ∧
    (utf8_maximal_subpart b = 0 ↔ b.length = 0) ∧
    (1 ≤ b.length →
      1 ≤ utf8_maximal_subpart b ∧ utf8_maximal_subpart b ≤ b.length) := by
  refine ⟨?_, ?_, ?_, ?_, ?_⟩
  · intro i hi hbefore hacc
    rcases maximal_subpart_cases b with ⟨hnone, hval⟩ |
      ⟨k, hk1, hk2, hhit, hbef, hval⟩ | ⟨k, hk1, hk2, hhit, hbef, hval⟩
    · exact absurd hacc (hnone (i + 1) (by omega) (by omega)).1
    · have hke : k = i + 1 := by
        by_contra hne
        rcases Nat.lt_or_ge k (i + 1) with hlt | hge
        · exact (hbefore (k - 1) (by omega)).1 (by
            have : k - 1 + 1 = k := by omega
            rw [this]; exact hhit)
        · exact absurd hacc (hbef (i + 1) (by omega) (by omega)).1
      omega
    · exfalso
      rcases Nat.lt_or_ge k (i + 1) with hlt | hge
      · exact (hbefore (k - 1) (by omega)).2 (by
          have : k - 1 + 1 = k := by omega
          rw [this]; exact hhit)
      · rcases Nat.eq_or_lt_of_le hge with rfl | hgt
        · rw [hhit] at hacc; omega
        · exact absurd hacc (hbef (i + 1) (by omega) (by omega)).1
  · intro i hi hbefore herr
    rcases maximal_subpart_cases b with ⟨hnone, hval⟩ |
      ⟨k, hk1, hk2, hhit, hbef, hval⟩ | ⟨k, hk1, hk2, hhit, hbef, hval⟩
    · exact absurd herr (hnone (i + 1) (by omega) (by omega)).2
    · exfalso
      rcases Nat.lt_or_ge k (i + 1) with hlt | hge
      · exact (hbefore (k - 1) (by omega)).1 (by
          have : k - 1 + 1 = k := by omega
          rw [this]; exact hhit)
      · rcases Nat.eq_or_lt_of_le hge with rfl | hgt
        · rw [hhit] at herr; omega
        · exact absurd herr (hbef (i + 1) (by omega) (by omega)).2
    · have hke : k = i + 1 := by
        by_contra hne
        rcases Nat.lt_or_ge k (i + 1) with hlt | hge
        · exact (hbefore (k - 1) (by omega)).2 (by
            have : k - 1 + 1 = k := by omega
            rw [this]; exact hhit)
        · exact absurd herr (hbef (i + 1) (by omega) (by omega)).2
      subst hke
      rw [hval]
      split_ifs <;> omega
  · intro hnohit
    rcases maximal_subpart_cases b with ⟨hnone, hval⟩ |
      ⟨k, hk1, hk2, hhit, hbef, hval⟩ | ⟨k, hk1, hk2, hhit, hbef, hval⟩
    · exact hval
    · exfalso
      have hk : k - 1 + 1 = k := by omega
      have hcon := (hnohit (k - 1) (by omega)).1
      rw [hk] at hcon
      exact hcon hhit
    · exfalso
      have hk : k - 1 + 1 = k := by omega
      have hcon := (hnohit (k - 1) (by omega)).2
      rw [hk] at hcon
      exact hcon hhit
  · constructor
    · intro hz
      by_contra hne
      have hb : b ≠ [] := by
        intro hnil; rw [hnil] at hne; simp at hne
      have := maximal_subpart_pos b hb
      omega
    · intro hz
      have hnil : b = [] := List.length_eq_zero.mp hz
      rw [hnil]; rfl
  · intro hlen
    have hb : b ≠ [] := by
      intro hnil; rw [hnil] at hlen; simp at hlen
    refine ⟨maximal_subpart_pos b hb, ?_⟩
    rcases maximal_subpart_le b with hle | hnil
    · exact hle
    · exact absurd hnil hb

theorem claim_C3_witness : utf8_maximal_subpart [0xC3, 0xA9, 0x41] = 2 :=
  (claim_C3 [0xC3, 0xA9, 0x41]).1 1 (by decide) (by decide) (by decide)

/-- C4 counterexample: the spec's own split of the well-formed buffer
`E2 82 AC` into chunks `[E2 82]`, `[AC]` yields per-call consumed counts
0 and 1, so the total consumed count (1) differs from the one-shot
cursor (3), refuting the "same total consumed-byte count" clause. -/
theorem claim_C4_cex :
    ¬ ((utf8_check [0xE2, 0x82, 0xAC]).1 = true →
      (utf8_stream_feed utf8_stream_init [[0xE2, 0x82], [0xAC]]).2.1 =
        (utf8_check [0xE2, 0x82, 0xAC]).2) := by
  intro h
  have h1 : (utf8_check [0xE2, 0x82, 0xAC]).1 = true := by
    rw [utf8_check_eq_plain]; decide
  have h2 := h h1
  rw [utf8_check_eq_plain] at h2
  revert h2
  decide

/-- C4 (amended): for every chunk list (is_final true only on the last
chunk), feeding the chunks in order through `utf8_stream_check` on a
freshly initialized handle yields the same overall valid/invalid verdict
as the one-shot `utf8_check` of the concatenation.  The total
consumed-byte count, however, can be smaller than the buffer length when
a sequence straddles a chunk boundary, so the "same total consumed-byte
count" clause of the original claim does not hold. -/
theorem claim_C4_amended (chunks : List (List Byte)) :
    (utf8_stream_feed utf8_stream_init chunks).1 =
      (utf8_check chunks.flatten).1 := by
  rw [utf8_check_eq_plain]
  simp only [utf8_check_plain, S_ACCEPT]
  rcases chunks with _ | ⟨c, rest⟩
  · simp [utf8_stream_feed, utf8_stream_init, List.flatten, run_nil]
  · have hv := feed_verdict (c :: rest) 6 (by omega) (by simp)
    simp only [utf8_stream_init, S_ACCEPT]
    by_cases h : utf8_dfa_run 6 ((c :: rest) : List (List Byte)).flatten = 6
    · rw [if_pos h]
      simp only [hv.mpr h]
    · rw [if_neg h]
      cases hb : (utf8_stream_feed ⟨6⟩ (c :: rest)).1 with
      | false => simp
      | true => exact absurd (hv.mp hb) h

/-- C5: whenever `utf8_stream_check` reports an error (DFA ERROR on some
byte, or a non-ACCEPT state at eof), the cursor is the offset just after
the most recent ACCEPT within the chunk (0 if ACCEPT was never reached),
and the persisted handle state is reset to ACCEPT. -/
theorem claim_C5 (s : Nat) (c : List Byte) (eof : Bool) (h' : utf8_stream_t)
    (cur : Nat) (h : utf8_stream_check ⟨s⟩ c eof = (h', .error cur)) :
    h'.state = S_ACCEPT ∧
    ((cur = 0 ∧ ∀ k, 1 ≤ k → k ≤ c.length → utf8_dfa_run s (c.take k) ≠ 6) ∨
     (1 ≤ cur ∧ cur ≤ c.length ∧ utf8_dfa_run s (c.take cur) = 6 ∧
      ∀ j, cur < j → j ≤ c.length → utf8_dfa_run s (c.take j) ≠ 6)) := by
  obtain ⟨LA, hla, hres⟩ := stream_loop_spec c s 0 0
  have hcur : ∀ heq : utf8_stream_check ⟨s⟩ c eof = (⟨S_ACCEPT⟩, .error LA),
      h'.state = S_ACCEPT ∧
      ((cur = 0 ∧ ∀ k, 1 ≤ k → k ≤ c.length → utf8_dfa_run s (c.take k) ≠ 6) ∨
       (1 ≤ cur ∧ cur ≤ c.length ∧ utf8_dfa_run s (c.take cur) = 6 ∧
        ∀ j, cur < j → j ≤ c.length → utf8_dfa_run s (c.take j) ≠ 6)) := by
    intro heq
    rw [heq] at h
    simp only [Prod.mk.injEq, Except.error.injEq] at h
    obtain ⟨hh, hcur⟩ := h
    constructor
    · rw [← hh]
    · subst hcur
      rcases hla with ⟨hval, hnone⟩ | ⟨ka, hka1, hka2, hval, hacc, hmax⟩
      · left; exact ⟨by omega, hnone⟩
      · right
        refine ⟨by omega, by omega, ?_, ?_⟩
        · have : LA = ka := by omega
          rw [this]; exact hacc
        · intro j hj1 hj2
          exact hmax j (by omega) hj2
  rcases hres with ⟨hnozero, hval⟩ | ⟨⟨k0, hk01, hk02, hk0⟩, hval⟩
  · by_cases h6 : utf8_dfa_run s c = 6
    · exfalso
      have : utf8_stream_check ⟨s⟩ c eof = (⟨utf8_dfa_run s c⟩, .ok c.length) := by
        simp [utf8_stream_check, hval, S_ACCEPT, h6]
      rw [this] at h
      simp at h
    · cases eof with
      | true =>
        apply hcur
        simp [utf8_stream_check, hval, S_ACCEPT, h6]
      | false =>
        exfalso
        have : utf8_stream_check ⟨s⟩ c false = (⟨utf8_dfa_run s c⟩, .ok LA) := by
          simp [utf8_stream_check, hval, S_ACCEPT, h6]
        rw [this] at h
        simp at h
  · apply hcur
    simp [utf8_stream_check, hval, S_ACCEPT]

theorem claim_C5_witness :
    (⟨6⟩ : utf8_stream_t).state = S_ACCEPT ∧
    ((0 = 0 ∧ ∀ k, 1 ≤ k → k ≤ ([0xC0] : List Byte).length →
        utf8_dfa_run 6 (List.take k [0xC0]) ≠ 6) ∨
     (1 ≤ 0 ∧ 0 ≤ ([0xC0] : List Byte).length ∧
      utf8_dfa_run 6 (List.take 0 [0xC0]) = 6 ∧
      ∀ j, 0 < j → j ≤ ([0xC0] : List Byte).length →
        utf8_dfa_run 6 (List.take j [0xC0]) ≠ 6)) :=
  claim_C5 6 [0xC0] false ⟨6⟩ 0 rfl

/-- C6: ERROR is absorbing in the packed-row encoding: for every byte
`c`, stepping from `S_ERROR` stays in `S_ERROR`; equivalently, the 5-bit
field at bit offset 0 of every table row is 0, despite the TAIL2 field
stored at bit offset 1 overlapping bits 1-4. -/
theorem claim_C6 :
    ∀ c : Byte, utf8_dfa_step S_ERROR c = S_ERROR ∧ utf8_dfa c &&& 31 = 0 := by
  decide

/-- C7: the ASCII fast path is a no-op: `utf8_check` returns exactly the
same (valid, cursor) pair as the plain byte-by-byte table scan
`utf8_check_plain`, because every ASCII byte maps ACCEPT to ACCEPT. -/
theorem claim_C7 (b : List Byte) :
    utf8_check b = utf8_check_plain b ∧
    ∀ c : Byte, c.val ≤ 0x7F → utf8_dfa_step S_ACCEPT c = S_ACCEPT :=
  ⟨utf8_check_eq_plain b, fun c hc => step6_ascii c hc⟩

theorem claim_C7_witness :
    utf8_check
        [0x61, 0x62, 0x63, 0x64, 0x65, 0x66, 0x67, 0x68,
         0x69, 0x6A, 0x6B, 0x6C, 0x6D, 0x6E, 0x6F, 0x70, 0xC3, 0xA9] =
      utf8_check_plain
        [0x61, 0x62, 0x63, 0x64, 0x65, 0x66, 0x67, 0x68,
         0x69, 0x6A, 0x6B, 0x6C, 0x6D, 0x6E, 0x6F, 0x70, 0xC3, 0xA9] ∧
    utf8_dfa_step S_ACCEPT 0x41 = S_ACCEPT :=
  ⟨(claim_C7 _).1,
   (claim_C7 ([] : List Byte)).2 0x41 (by decide)⟩

/-- C8 counterexample: for `b = F0 41` the maximal prefix is 0 and the
maximal subpart of the remainder is 1 (the lone `F0`), so the sum is 1 <
2 = len even though the bytes after the subpart (`41`) are entirely
well-formed — no "further error follows". -/
theorem claim_C8_cex :
    ¬ ( utf8_maximal_prefix [0xF0, 0x41] +
          utf8_maximal_subpart
            (List.drop ( utf8_maximal_prefix [0xF0, 0x41]) [0xF0, 0x41]) =
          ([0xF0, 0x41] : List Byte).length ∨
        utf8_spec_wf (List.drop
          ( utf8_maximal_prefix [0xF0, 0x41] +
            utf8_maximal_subpart
              (List.drop ( utf8_maximal_prefix [0xF0, 0x41]) [0xF0, 0x41]))
          [0xF0, 0x41]) = false) := by
  decide

/-- C8 (amended): for every buffer `b`,
`utf8_maximal_prefix b + utf8_maximal_subpart (b.drop (utf8_maximal_prefix b))`
is at most `len b`.  Equality can fail even when the bytes following the
subpart are well-formed (see the counterexample), so only the inequality
holds unconditionally. -/
theorem claim_C8_amended (b : List Byte) :
    utf8_maximal_prefix b +
      utf8_maximal_subpart (List.drop ( utf8_maximal_prefix b) b) ≤
      b.length := by
  have hp := maximal_prefix_le b
  rcases maximal_subpart_le (List.drop ( utf8_maximal_prefix b) b) with hs | hnil
  · rw [List.length_drop] at hs
    omega
  · rw [hnil, maximal_subpart_nil]
    omega

/-- C9: the nine overlapping 5-bit state fields never bleed into each
other: for every byte and every one of the nine state offsets, the
extracted field is again one of the nine offsets and equals the next
state prescribed by the UTF-8 grammar. -/
theorem claim_C9 :
    ∀ c : Byte, ∀ s ∈ utf8_states,
      utf8_dfa_step s c ∈ utf8_states ∧
      utf8_dfa_step s c = utf8_grammar_step s c :=
  fun c s hs => ⟨dfa_step_mem_states c s hs, dfa_step_eq_grammar c s hs⟩

theorem claim_C9_witness :
    utf8_dfa_step S_E0 0xA5 ∈ utf8_states ∧
    utf8_dfa_step S_E0 0xA5 = utf8_grammar_step S_E0 0xA5 :=
  claim_C9 0xA5 S_E0 (by decide)

/-- C10: a maximal subpart never exceeds 4 bytes: starting from ACCEPT the
DFA reaches ACCEPT or ERROR within at most 4 bytes, so
`utf8_maximal_subpart b ≤ min (len b) 4`. -/
theorem claim_C10 (b : List Byte) :
    utf8_maximal_subpart b ≤ min b.length 4 := by
  rcases Nat.lt_or_ge b.length 4 with hlen | hlen
  · rcases maximal_subpart_le b with hs | hnil
    · omega
    · rw [hnil]; simp [maximal_subpart_nil]
  · obtain ⟨k, hk1, hk4, hhit⟩ := hit_within_four b hlen
    rcases maximal_subpart_cases b with ⟨hnone, hval⟩ |
      ⟨k', hk'1, hk'2, hhit6, hbef, hval⟩ | ⟨k', hk'1, hk'2, hhit0, hbef, hval⟩
    · exfalso
      have := hnone k hk1 (by omega)
      rcases hhit with hcase | hcase
      · exact this.1 hcase
      · exact this.2 hcase
    · have hk'le : k' ≤ k := by
        by_contra hgt
        push_neg at hgt
        have := hbef k hk1 hgt
        rcases hhit with hcase | hcase
        · exact this.1 hcase
        · exact this.2 hcase
      omega
    · have hk'le : k' ≤ k := by
        by_contra hgt
        push_neg at hgt
        have := hbef k hk1 hgt
        rcases hhit with hcase | hcase
        · exact this.1 hcase
        · exact this.2 hcase
      rw [hval]
      split_ifs <;> omega
